import Mathlib

/-!
A shallow embedding, in Lean 4, of the `segmentio/go-hll` HyperLogLog library
(files `hll.go`, `settings.go`, `dense.go`, `sparse.go`, `explicit.go`,
`storage.go`, `util.go`), together with theorems settling the claims of the
natural-language specification against this embedding.

Modelling conventions:
* Go `uint64`/`byte` values are modelled as `ℕ`; wherever Go overflow or
  truncation can occur the embedding applies the corresponding `% 2 ^ 64` or
  `% 256` explicitly.
* Go maps are modelled canonically: `explicitStorage` (a set of `uint64`) as a
  `Finset ℕ`, `sparseStorage` (a map `int32 → byte`) as an association list
  sorted strictly by key.  Go map iteration order is unspecified; wherever the
  source iterates a map the embedding iterates the canonical ascending order.
* Loops are modelled as folds; the two bit-I/O loops of `util.go`, whose trip
  count is data dependent, take an explicit structural fuel equal to the number
  of bits requested, which is an upper bound on the number of iterations.
-/

namespace GoHll

/-- `util.go divideBy8RoundUp`: `i >> 3`, plus one when `i & 0x7 > 0`. -/
def divideBy8RoundUp (i : ℕ) : ℕ :=
  let result := i >>> 3
  if i &&& 7 > 0 then result + 1 else result

/-- Fuel-indexed loop for Go `bits.TrailingZeros64`: counts low zero bits,
consuming one bit of fuel per inspected binary digit. -/
def tz64Go : ℕ → ℕ → ℕ
  | 0, _ => 0
  | fuel + 1, x => if x % 2 = 1 then 0 else tz64Go fuel (x / 2) + 1

/-- Go `bits.TrailingZeros64` on a `uint64`: the index of the least significant
set bit; `64` for input `0`. -/
def tz64 (x : ℕ) : ℕ := tz64Go 64 x

/-- Fuel-indexed base-2 logarithm (`⌊log2 n⌋`, and `0` for `n ∈ {0, 1}`),
written structurally so that it evaluates by kernel reduction. -/
def log2Go : ℕ → ℕ → ℕ
  | 0, _ => 0
  | fuel + 1, n => if 2 ≤ n then log2Go fuel (n / 2) + 1 else 0

/-- Go `bits.Len32`: minimum number of bits needed to represent `x`; `0` for
`x = 0`.  For `x ≥ 1` this is `⌊log2 x⌋ + 1`. -/
def len32 (x : ℕ) : ℕ := if x = 0 then 0 else log2Go 32 x + 1

/-- Bitwise complement of a Go `uint64` (`^x`). -/
def compl64 (x : ℕ) : ℕ := (2 ^ 64 - 1) ^^^ x

/-- Go `uint64` subtraction of one, wrapping at zero. -/
def subOne64 (x : ℕ) : ℕ := (x + 2 ^ 64 - 1) % 2 ^ 64

/-- `settings.go pwMaxMask`: with `maxRegisterValue := (1 << regwidth) - 1`,
the mask is `^((1 << (maxRegisterValue - 1)) - 1)` on `uint64`.  Go shifts by
64 or more produce `0`, and the subsequent `0 - 1` wraps to all ones; both are
modelled explicitly. -/
def pwMaxMask (regwidth : ℕ) : ℕ :=
  let maxRegisterValue := (1 <<< regwidth) - 1
  compl64 (subOne64 ((1 <<< (maxRegisterValue - 1)) % 2 ^ 64))

/-- The internal `settings` struct of `settings.go`.  Only the fields consulted
by the modelled operations appear; the floating-point estimator constants
(`alphaMSquared`, the estimator cutoffs, `twoToL`) drive only `Cardinality`,
which no claim requires.  The derived masks are modelled as functions of the
two width fields rather than duplicated as fields. -/
structure GoSettings where
  log2m : ℕ
  regwidth : ℕ
  explicitAuto : Bool
  sparseEnabled : Bool
  explicitThreshold : ℕ
  sparseThreshold : ℕ
deriving DecidableEq

/-- `settings.go`: `mBitsMask = (1 << log2m) - 1`. -/
def mBitsMask (st : GoSettings) : ℕ := (1 <<< st.log2m) - 1

/-- `maxRegisterValue = (1 << regwidth) - 1` (named `max_reg_value` in the
spec). -/
def maxRegValue (st : GoSettings) : ℕ := (1 <<< st.regwidth) - 1

/-- The exported `Settings` struct.  `ExplicitThreshold` is an `int` in Go with
`-1` meaning auto, hence `ℤ` here; the other integer fields are only ever
non-negative in the modelled flows. -/
structure GoSettingsExt where
  Log2m : ℕ
  Regwidth : ℕ
  ExplicitThreshold : ℤ
  SparseEnabled : Bool
deriving DecidableEq

/-- The errors surfaced by the modelled functions.  The Go library returns
`error` values; distinct constructors stand for the distinct messages
(`ErrInsufficientBytes`, the version and type format errors of `FromBytes`,
and the six range violations of `Settings.validate`). -/
inductive HllError where
  | insufficientBytes
  | unsupportedVersion (v : ℕ)
  | invalidType (t : ℕ)
  | log2mTooSmall
  | log2mTooLarge
  | regwidthTooSmall
  | regwidthTooLarge
  | thresholdTooSmall
  | thresholdTooLarge
deriving DecidableEq

/-- `settings.go Settings.validate`, with the checks in source order. -/
def validateSettings (s : GoSettingsExt) : Option HllError :=
  if s.Log2m < 4 then some .log2mTooSmall
  else if s.Log2m > 31 then some .log2mTooLarge
  else if s.Regwidth < 1 then some .regwidthTooSmall
  else if s.Regwidth > 8 then some .regwidthTooLarge
  else if s.ExplicitThreshold < -1 then some .thresholdTooSmall
  else if s.ExplicitThreshold > 131072 then some .thresholdTooLarge
  else none

/-- `settings.go calculateExplicitThreshold`:
`numLongs = divideBy8RoundUp(regwidth * m) / 8`, capped at
`maximumExplicitThreshold = 1 << 17 = 131072`. -/
def calculateExplicitThreshold (log2m regwidth : ℕ) : ℕ :=
  let m := 1 <<< log2m
  let fullRepresentationSize := divideBy8RoundUp (regwidth * m)
  let numLongs := fullRepresentationSize / 8
  if numLongs > 131072 then 131072 else numLongs

/-- Modelled from the spec: `settings.go calculateSparseThreshold` computes
`1 << uint(math.Log2(float64(m*regwidth) / float64(log2m+regwidth)))` with
`float64` arithmetic, which this embedding does not model.  Following the
spec sentence `sparse_threshold = 1 << floor(log2(m*regwidth / (log2m +
regwidth)))` it is modelled with exact integer arithmetic; the two agree on
every valid `(log2m, regwidth)` pair because the rational quotient is never
within one ulp of a power of two without being one exactly. -/
def calculateSparseThreshold (log2m regwidth : ℕ) : ℕ :=
  1 <<< log2Go 64 ((1 <<< log2m) * regwidth / (log2m + regwidth))

/-- `settings.go Settings.toInternal`: validate, then derive the internal
settings (the memoizing cache is behaviourally transparent and not
modelled). -/
def toInternal (s : GoSettingsExt) : Except HllError GoSettings :=
  match validateSettings s with
  | some e => .error e
  | none =>
    let explicitAuto := s.ExplicitThreshold = -1
    let explicitThreshold :=
      if s.ExplicitThreshold = -1 then calculateExplicitThreshold s.Log2m s.Regwidth
      else s.ExplicitThreshold.toNat
    let sparseThreshold :=
      if s.SparseEnabled then calculateSparseThreshold s.Log2m s.Regwidth else 0
    .ok ⟨s.Log2m, s.Regwidth, explicitAuto, s.SparseEnabled, explicitThreshold,
         sparseThreshold⟩

/-- `hll.go packCutoffByte`: the third header byte.  For a non-zero, non-auto
threshold the source computes `byte(bits.Len32(uint32(t))) - 1`; the `uint32`
cast is modelled by `% 2 ^ 32` (`Len32 ≥ 1` there, so the outer byte
subtraction cannot wrap). -/
def packCutoffByte (st : GoSettings) : ℕ :=
  let threshold : ℕ :=
    if st.explicitAuto then 63
    else if st.explicitThreshold = 0 then 0
    else len32 (st.explicitThreshold % 2 ^ 32) - 1
  if st.sparseEnabled then threshold ||| (1 <<< 6) else threshold

/-- `hll.go unpackCutoffByte`: returns `(sparseEnabled, explicitThreshold)`
where the threshold `-1` means auto. -/
def unpackCutoffByte (b : ℕ) : Bool × ℤ :=
  let sparseEnabled : Bool := b >>> 6 == 1
  let expThreshold := b &&& 63
  if expThreshold = 0 then (sparseEnabled, 0)
  else if expThreshold = 63 then (sparseEnabled, -1)
  else (sparseEnabled, (2 : ℤ) ^ (expThreshold - 1))

/-- The loop of `util.go readBits`, with state `(idx, pos, value,
bitsRequired)`.  The fuel equals the requested bit count, an upper bound on
the number of iterations (each consumes at least one bit while `pos < 8`). -/
def readBitsGo (bytes : List ℕ) : ℕ → ℕ → ℕ → ℕ → ℕ → ℕ
  | 0, _, _, value, _ => value
  | fuel + 1, idx, pos, value, br =>
    if br = 0 then value
    else
      let ba := min (8 - pos) br
      let mask := ((1 <<< ba) - 1) <<< (8 - pos - ba)
      let bits0 := bytes.getD idx 0 &&& mask
      let bits1 := if pos + ba ≠ 8 then bits0 >>> (8 - (pos + ba)) else bits0
      let value' := (value <<< ba) ||| bits1
      if pos + ba = 8 then readBitsGo bytes fuel (idx + 1) 0 value' (br - ba)
      else readBitsGo bytes fuel idx (pos + ba) value' (br - ba)

/-- `util.go readBits`: reads `nBits` from the MSB-first bit address `addr`. -/
def readBits (bytes : List ℕ) (addr nBits : ℕ) : ℕ :=
  readBitsGo bytes nBits (addr >>> 3) (addr &&& 7) 0 nBits

/-- The loop of `util.go writeBits`; fuel as in `readBitsGo`.  The byte mask
`byte(1 << btw) - 1` equals `(1 <<< btw) - 1` for every `btw ≤ 8` (including
the wrap at `btw = 8`), and the byte cast of the value chunk is `% 256`. -/
def writeBitsGo : List ℕ → ℕ → ℕ → ℕ → ℕ → ℕ → List ℕ
  | bytes, 0, _, _, _, _ => bytes
  | bytes, fuel + 1, idx, pos, value, nBits =>
    if nBits = 0 then bytes
    else
      let btw := min (8 - pos) nBits
      let mask := (1 <<< btw) - 1
      let part0 := mask &&& (value >>> (nBits - btw) % 256)
      let part := if pos + btw ≠ 8 then part0 <<< (8 - (pos + btw)) else part0
      let bytes' := bytes.set idx (bytes.getD idx 0 ||| part)
      if pos + btw = 8 then writeBitsGo bytes' fuel (idx + 1) 0 value (nBits - btw)
      else writeBitsGo bytes' fuel idx (pos + btw) value (nBits - btw)

/-- `util.go writeBits`: ORs the `nBits` LSBs of `value` into the buffer at
the MSB-first bit address `addr`. -/
def writeBits (bytes : List ℕ) (addr value nBits : ℕ) : List ℕ :=
  writeBitsGo bytes nBits (addr >>> 3) (addr &&& 7) value nBits

/-- `encoding/binary` BigEndian.PutUint64: eight bytes, most significant
first. -/
def beBytes64 (w : ℕ) : List ℕ :=
  [(w >>> 56) % 256, (w >>> 48) % 256, (w >>> 40) % 256, (w >>> 32) % 256,
   (w >>> 24) % 256, (w >>> 16) % 256, (w >>> 8) % 256, w % 256]

/-- `encoding/binary` BigEndian.Uint64 over an 8-byte slice. -/
def beRead64 (bs : List ℕ) : ℕ := bs.foldl (fun a b => a * 256 + b) 0

/-- `sparse.go sparseStorage` (a Go map `int32 → byte`), modelled canonically
as an association list sorted strictly by register number.  Equal Go maps have
equal canonical forms. -/
abbrev SparseStorage := List (ℕ × ℕ)

/-- Association-list lookup. -/
def sparseLookup : SparseStorage → ℕ → Option ℕ
  | [], _ => none
  | (k, v) :: t, key => if k = key then some v else sparseLookup t key

/-- Go map read `s[int32(regnum)]`: zero for an absent key. -/
def sparseRead (s : SparseStorage) (k : ℕ) : ℕ := (sparseLookup s k).getD 0

/-- Go map write `s[key] = v`, preserving the canonical sorted form. -/
def sparseAssign : SparseStorage → ℕ → ℕ → SparseStorage
  | [], key, v => [(key, v)]
  | (k, w) :: t, key, v =>
    if key < k then (key, v) :: (k, w) :: t
    else if key = k then (key, v) :: t
    else (k, w) :: sparseAssign t key v

/-- `sparse.go setIfGreater`: assign only when strictly greater than the
current (absent = 0) value. -/
def sparseSetIfGreater (s : SparseStorage) (k v : ℕ) : SparseStorage :=
  if v > sparseRead s k then sparseAssign s k v else s

/-- `sparse.go sizeInBytes`. -/
def sparseSizeInBytes (st : GoSettings) (s : SparseStorage) : ℕ :=
  divideBy8RoundUp ((st.log2m + st.regwidth) * s.length)

/-- `sparse.go writeBytes`: iterate registers in ascending order, packing
`(reg << regwidth) | value` into `log2m + regwidth` bits each. -/
def sparseWriteBytes (st : GoSettings) (s : SparseStorage) (bytes : List ℕ) : List ℕ :=
  let bitsPerRegister := st.log2m + st.regwidth
  (s.foldl (fun acc kv =>
      (writeBits acc.1 acc.2 ((kv.1 <<< st.regwidth) ||| kv.2) bitsPerRegister,
       acc.2 + bitsPerRegister))
    (bytes, 0)).1

/-- `sparse.go fromBytes`: reads `floor(8·len / (log2m + regwidth))` packed
words (`s[reg] = byte(word) & regMask`); never fails. -/
def sparseFromBytes (st : GoSettings) (s : SparseStorage) (bytes : List ℕ) : SparseStorage :=
  let bitsPerRegister := st.regwidth + st.log2m
  let regMask := (1 <<< st.regwidth) - 1
  let numRegisters := 8 * bytes.length / bitsPerRegister
  (List.range numRegisters).foldl (fun acc i =>
    let regAndVal := readBits bytes (i * bitsPerRegister) bitsPerRegister
    sparseAssign acc (regAndVal >>> st.regwidth) (regAndVal % 256 &&& regMask)) s

/-- `dense.go denseStorage`: a vector of uint64 words. -/
abbrev DenseStorage := List ℕ

/-- `dense.go newDenseStorage` word count:
`divideBy8RoundUp(divideBy8RoundUp((1 << log2m) * regwidth))`. -/
def denseWords (st : GoSettings) : ℕ :=
  divideBy8RoundUp (divideBy8RoundUp ((1 <<< st.log2m) * st.regwidth))

/-- `dense.go newDenseStorage`: all registers zero. -/
def newDense (st : GoSettings) : DenseStorage := List.replicate (denseWords st) 0

/-- `dense.go sizeInBytes`. -/
def denseSizeInBytes (st : GoSettings) : ℕ :=
  divideBy8RoundUp ((1 <<< st.log2m) * st.regwidth)

/-- `dense.go get`: one register value.  The source returns a Go byte, hence
the final `% 256` (never a truncation for regwidth ≤ 8). -/
def denseGet (s : DenseStorage) (regnum regwidth : ℕ) : ℕ :=
  let idx := (regnum * regwidth) >>> 6
  let pos := (regnum * regwidth) &&& 63
  if pos + regwidth ≤ 64 then
    let shiftLeft := if pos + regwidth < 64 then 64 - (pos + regwidth) else 0
    let mask := ((1 <<< regwidth) - 1) <<< shiftLeft
    ((mask &&& s.getD idx 0) >>> shiftLeft) % 256
  else
    let nBitsUpper := 64 - pos
    let nBitsLower := regwidth - nBitsUpper
    let maskUpper := (1 <<< nBitsUpper) - 1
    let upper := (s.getD idx 0 &&& maskUpper) <<< nBitsLower
    let lower := s.getD (idx + 1) 0 >>> (64 - nBitsLower)
    (upper ||| lower) % 256

/-- `dense.go setIfGreater`.  In the straddling branch the source compares
with `>=` (writing back the identical bits when equal) and masks the written
value into the field. -/
def denseSetIfGreater (st : GoSettings) (s : DenseStorage) (regnum value : ℕ) : DenseStorage :=
  let idx := (regnum * st.regwidth) >>> 6
  let pos := (regnum * st.regwidth) &&& 63
  let nBits := st.regwidth
  if pos + nBits ≤ 64 then
    let mask0 := (1 <<< st.regwidth) - 1
    let shiftLeft := if pos + nBits < 64 then 64 - (pos + nBits) else 0
    let partToWrite := (value &&& mask0) <<< shiftLeft
    let mask := mask0 <<< shiftLeft
    let currVal := ((mask &&& s.getD idx 0) >>> shiftLeft) % 256
    if value > currVal then s.set idx ((compl64 mask &&& s.getD idx 0) ||| partToWrite)
    else s
  else
    let nBitsUpper := 64 - pos
    let nBitsLower := nBits - nBitsUpper
    let maskUpper := (1 <<< nBitsUpper) - 1
    let maskLower := (1 <<< nBitsLower) - 1
    let upper := (s.getD idx 0 &&& maskUpper) <<< nBitsLower
    let lower := s.getD (idx + 1) 0 >>> (64 - nBitsLower)
    let currVal := upper ||| lower
    if currVal % 256 ≤ value then
      let partToWriteUpper := (value >>> nBitsLower) &&& maskUpper
      let partToWriteLower := (value &&& maskLower) <<< (64 - nBitsLower)
      let maskLowerShifted := maskLower <<< (64 - nBitsLower)
      (s.set idx ((compl64 maskUpper &&& s.getD idx 0) ||| partToWriteUpper)).set (idx + 1)
        ((compl64 maskLowerShifted &&& s.getD (idx + 1) 0) ||| partToWriteLower)
    else s

/-- The mutable state of the register loop in `dense.go union`. -/
structure DUState where
  idx : ℕ
  pos : ℕ
  thisWord : ℕ
  otherWord : ℕ
  computed : ℕ
  mask : ℕ
  arr : DenseStorage
deriving DecidableEq

/-- One iteration of the register loop of `dense.go union`.  The straddling
branch flushes `computed` into the array, advances to the next word of both
storages, and merges the spilled-over low bits per the three-outcome upper
comparison. -/
def denseUnionStep (st : GoSettings) (other : DenseStorage) (σ : DUState) : DUState :=
  if st.regwidth ≤ 64 - σ.pos then
    let thisValue := σ.thisWord &&& σ.mask
    let otherValue := σ.otherWord &&& σ.mask
    let computed' :=
      if otherValue > thisValue then (compl64 σ.mask &&& σ.computed) ||| otherValue
      else σ.computed
    ⟨σ.idx, σ.pos + st.regwidth, σ.thisWord, σ.otherWord, computed',
      σ.mask >>> st.regwidth, σ.arr⟩
  else
    let bitsAvailable := 64 - σ.pos
    let thisValue := σ.thisWord &&& σ.mask
    let otherValue := σ.otherWord &&& σ.mask
    let condUpper : Bool := decide (0 < bitsAvailable)
    let otherIsGreater := condUpper && decide (otherValue > thisValue)
    let thisIsGreater := condUpper && decide (otherValue < thisValue)
    let computed1 :=
      if otherIsGreater = true then (compl64 σ.mask &&& σ.computed) ||| otherValue
      else σ.computed
    let arr1 := if computed1 ≠ σ.thisWord then σ.arr.set σ.idx computed1 else σ.arr
    let idx1 := σ.idx + 1
    let thisWord1 := arr1.getD idx1 0
    let otherWord1 := other.getD idx1 0
    let nLowerBits := st.regwidth - bitsAvailable
    let lowerMask := ((1 <<< nLowerBits) - 1) <<< (64 - nLowerBits)
    let thisLowerBits := thisWord1 &&& lowerMask
    let otherLowerBits := otherWord1 &&& lowerMask
    let computed2 :=
      if thisIsGreater = true then thisWord1
      else if (otherIsGreater && decide (thisLowerBits ≠ otherLowerBits))
                || decide (otherLowerBits > thisLowerBits) then
        (compl64 lowerMask &&& thisWord1) ||| otherLowerBits
      else thisWord1
    ⟨idx1, nLowerBits, thisWord1, otherWord1, computed2,
      ((mBitsMask st <<< (64 - st.regwidth)) % 2 ^ 64) >>> nLowerBits, arr1⟩

/-- `dense.go union`: the streaming same-settings union of `other` into `s`.
The register mask is `mBitsMask << (64 - regwidth)` truncated to uint64,
exactly as in the source. -/
def denseUnionStreaming (st : GoSettings) (s other : DenseStorage) : DenseStorage :=
  let numReg := 1 <<< st.log2m
  let σ0 : DUState :=
    ⟨0, 0, s.getD 0 0, other.getD 0 0, s.getD 0 0,
      (mBitsMask st <<< (64 - st.regwidth)) % 2 ^ 64, s⟩
  let σ := (List.range numReg).foldl (fun acc _ => denseUnionStep st other acc) σ0
  if σ.computed ≠ σ.thisWord then σ.arr.set σ.idx σ.computed else σ.arr

/-- `hll.go denseUnion`, mismatched-settings path: per-register `get` (the
source passes the other storage's log2m as the regwidth argument of `get`)
followed by a `byte(mBitsMask)`-masked setIfGreater. -/
def denseUnionMixed (thisSt otherSt : GoSettings) (s other : DenseStorage) : DenseStorage :=
  (List.range (1 <<< thisSt.log2m)).foldl (fun acc i =>
    let regVal := denseGet other i otherSt.log2m &&& (mBitsMask thisSt % 256)
    denseSetIfGreater thisSt acc i regVal) s

/-- `hll.go denseUnion`: streaming when regwidth and log2m agree, otherwise
the per-register loop. -/
def denseUnionGo (thisSt otherSt : GoSettings) (s other : DenseStorage) : DenseStorage :=
  if thisSt.log2m = otherSt.log2m ∧ thisSt.regwidth = otherSt.regwidth then
    denseUnionStreaming thisSt s other
  else denseUnionMixed thisSt otherSt s other

/-- `dense.go writeBytes`: each word big-endian; a trailing partial word
emits only its high-order bytes.  The source fills a caller-provided zero
buffer of exactly `sizeInBytes` bytes; the embedding returns that buffer. -/
def denseWriteBytes (st : GoSettings) (s : DenseStorage) : List ℕ :=
  let size := denseSizeInBytes st
  let nWords := size / 8
  let full := ((List.range nWords).map (fun i => beBytes64 (s.getD i 0))).flatten
  let remainder := size % 8
  full ++ (List.range remainder).map (fun i => (s.getD nWords 0 >>> (64 - 8 * (i + 1))) % 256)

/-- `dense.go fromBytes`: fails unless the payload length is exactly
`sizeInBytes`; otherwise reconstructs every word of the freshly allocated
storage (a trailing partial word takes its high bytes from the payload and
zero elsewhere). -/
def denseFromBytes (st : GoSettings) (bytes : List ℕ) : Except HllError DenseStorage :=
  if bytes.length ≠ denseSizeInBytes st then .error .insufficientBytes
  else
    let n := bytes.length
    let nWords := n / 8
    let remainder := n % 8
    let lastValue := (List.range remainder).foldl
      (fun acc i => acc ||| (bytes.getD (n - (remainder - i)) 0 <<< (64 - 8 * (i + 1)))) 0
    .ok ((List.range (denseWords st)).map (fun i =>
      if i < nWords then beRead64 ((bytes.drop (8 * i)).take 8) else lastValue))

/-- `explicit.go explicitStorage`: the set of observed raw values. -/
abbrev ExplicitStorage := Finset ℕ

/-- The writer sorts values as signed int64 ascending: every value with the
top bit set (negative as int64) precedes those without, each group ascending
by the unsigned order. -/
def explicitSorted (s : ExplicitStorage) : List ℕ :=
  let l := s.sort (· ≤ ·)
  l.filter (fun v => 2 ^ 63 ≤ v) ++ l.filter (fun v => v < 2 ^ 63)

/-- `explicit.go writeBytes`: each value as 8 big-endian bytes, in signed
ascending order. -/
def explicitWriteBytes (s : ExplicitStorage) : List ℕ :=
  ((explicitSorted s).map beBytes64).flatten

/-- `explicit.go fromBytes`: fails unless the length is a multiple of 8;
otherwise inserts each big-endian 8-byte value. -/
def explicitFromBytes (s : ExplicitStorage) (bytes : List ℕ) :
    Except HllError ExplicitStorage :=
  if bytes.length % 8 ≠ 0 then .error .insufficientBytes
  else .ok ((List.range (bytes.length / 8)).foldl
    (fun acc i => insert (beRead64 ((bytes.drop (8 * i)).take 8)) acc) s)

/-- The storage tiers of `hll.go` (`nil`, explicit, sparse, dense). -/
inductive Storage where
  | empty
  | ex (s : ExplicitStorage)
  | sp (s : SparseStorage)
  | ds (s : DenseStorage)
deriving DecidableEq

/-- An initialized counter: internal settings plus storage. -/
structure Hll where
  st : GoSettings
  storage : Storage
deriving DecidableEq

/-- `hll.go AddRaw` register-value arithmetic:
`pW = 1 + TrailingZeros64(substream | pwMaxMask)`. -/
def pwValue (st : GoSettings) (value : ℕ) : ℕ :=
  1 + tz64 ((value >>> st.log2m) ||| pwMaxMask st.regwidth)

/-- `hll.go AddRaw` register index: `i = value & mBitsMask`. -/
def regIndex (st : GoSettings) (value : ℕ) : ℕ := value &&& mBitsMask st

/-- `hll.go sparseToDense` (and the sparse branch of `upgrade`): fold
`setIfGreater` over the sparse entries into a fresh dense storage. -/
def sparseToDense (st : GoSettings) (s : SparseStorage) : DenseStorage :=
  s.foldl (fun d kv => denseSetIfGreater st d kv.1 kv.2) (newDense st)

/-- The `registers` branch of `hll.go AddRaw` (shared by the direct call and
the upgrade replay): early return on zero substream — skipping the capacity
check — else `setIfGreater` followed by the over-capacity promotion.  Dense
storage is never over capacity.  On explicit or empty storage (never reached)
it is the identity. -/
def addRawReg (h : Hll) (value : ℕ) : Hll :=
  match h.storage with
  | .sp s =>
    if value >>> h.st.log2m = 0 then ⟨h.st, .sp s⟩
    else
      let s' := sparseSetIfGreater s (regIndex h.st value) (pwValue h.st value)
      if s'.length > h.st.sparseThreshold then ⟨h.st, .ds (sparseToDense h.st s')⟩
      else ⟨h.st, .sp s'⟩
  | .ds s =>
    if value >>> h.st.log2m = 0 then ⟨h.st, .ds s⟩
    else ⟨h.st, .ds (denseSetIfGreater h.st s (regIndex h.st value) (pwValue h.st value))⟩
  | _ => h

/-- The explicit branch of `hll.go upgrade`: fresh sparse (or dense) storage,
then replay every stored raw value through `AddRaw`.  At that point the
storage is a register type, so each replayed `AddRaw` is exactly the zero
check plus `addRawReg`; Go map iteration order is unspecified and the final
state is order independent, so the canonical ascending order is used. -/
def upgradeFromExplicit (st : GoSettings) (s : ExplicitStorage) : Hll :=
  let h0 : Hll := ⟨st, if st.sparseEnabled then .sp [] else .ds (newDense st)⟩
  (s.sort (· ≤ ·)).foldl (fun acc v => if v = 0 then acc else addRawReg acc v) h0

/-- `hll.go AddRaw` on an initialized counter: ignore zero, bootstrap empty
storage to the lowest enabled tier, dispatch on the tier, and promote when
over capacity. -/
def addRaw (h : Hll) (value : ℕ) : Hll :=
  if value = 0 then h
  else
    let stor : Storage := match h.storage with
      | .empty =>
        if 0 < h.st.explicitThreshold then .ex (∅ : Finset ℕ)
        else if h.st.sparseEnabled then .sp []
        else .ds (newDense h.st)
      | s => s
    match stor with
    | .ex s =>
      let s' := insert value s
      if s'.card > h.st.explicitThreshold then upgradeFromExplicit h.st s'
      else ⟨h.st, .ex s'⟩
    | s => addRawReg ⟨h.st, s⟩ value

/-- `hll.go upgrade`. -/
def upgradeStorage (h : Hll) : Hll :=
  match h.storage with
  | .ex s => upgradeFromExplicit h.st s
  | .sp s => ⟨h.st, .ds (sparseToDense h.st s)⟩
  | _ => h

/-- The `overCapacity` dispatch of the three storage types. -/
def overCapacity (st : GoSettings) : Storage → Bool
  | .ex s => s.card > st.explicitThreshold
  | .sp s => s.length > st.sparseThreshold
  | _ => false

/-- `hll.go addFromExplicit`: `AddRaw` every value of the set (canonical
order; the result is order independent). -/
def addFromExplicit (h : Hll) (s : ExplicitStorage) : Hll :=
  (s.sort (· ≤ ·)).foldl addRaw h

/-- The 3×3 storage dispatch of `hll.go union` (both storages non-nil).  The
sparse-into-registers loop masks the incoming value with `byte(mBitsMask)`,
exactly as the source does. -/
def unionDispatch (h other : Hll) : Hll :=
  match other.storage with
  | .ex os => addFromExplicit h os
  | .sp os =>
    match h.storage with
    | .ex ts =>
      let base : Hll :=
        if h.st.sparseEnabled then ⟨h.st, .sp os⟩
        else ⟨h.st, .ds (sparseToDense h.st os)⟩
      addFromExplicit base ts
    | .sp ts =>
      ⟨h.st, .sp (os.foldl (fun acc kv =>
        sparseSetIfGreater acc kv.1 (kv.2 &&& (mBitsMask h.st % 256))) ts)⟩
    | .ds ts =>
      ⟨h.st, .ds (os.foldl (fun acc kv =>
        denseSetIfGreater h.st acc kv.1 (kv.2 &&& (mBitsMask h.st % 256))) ts)⟩
    | .empty => h
  | .ds os =>
    match h.storage with
    | .ex ts => addFromExplicit ⟨h.st, .ds os⟩ ts
    | .sp ts => ⟨h.st, .ds (denseUnionGo h.st other.st (sparseToDense h.st ts) os)⟩
    | .ds ts => ⟨h.st, .ds (denseUnionGo h.st other.st ts os)⟩
    | .empty => h
  | .empty => h

/-- `hll.go union` with `strict = false` (the exported `Union`): no-op when
the other counter is empty; a deep copy (with the sparse-disabled edge case)
when this counter is empty — both without a capacity check — otherwise the
3×3 dispatch followed by the over-capacity promotion. -/
def unionModel (h other : Hll) : Hll :=
  match other.storage with
  | .empty => h
  | _ =>
    match h.storage with
    | .empty =>
      match other.storage with
      | .sp os =>
        if h.st.sparseEnabled then ⟨h.st, .sp os⟩
        else ⟨h.st, .ds (sparseToDense h.st os)⟩
      | os => ⟨h.st, os⟩
    | _ =>
      let h' := unionDispatch h other
      if overCapacity h'.st h'.storage then upgradeStorage h' else h'

/-- The `sizeInBytes` dispatch of the storage types. -/
def storageSizeInBytes (st : GoSettings) : Storage → ℕ
  | .ex s => 8 * s.card
  | .sp s => sparseSizeInBytes st s
  | .ds _ => denseSizeInBytes st
  | .empty => 0

/-- The `writeBytes` dispatch: the payload written into the zero buffer that
`hll.go ToBytes` allocates after the three header bytes. -/
def storagePayload (st : GoSettings) : Storage → List ℕ
  | .ex s => explicitWriteBytes s
  | .sp s => sparseWriteBytes st s (List.replicate (sparseSizeInBytes st s) 0)
  | .ds s => denseWriteBytes st s
  | .empty => []

/-- `hll.go ToBytes`: version/type byte, width byte, cutoff byte, payload. -/
def toBytes (h : Hll) : List ℕ :=
  let stype : ℕ := match h.storage with
    | .ex _ => 2
    | .sp _ => 3
    | .ds _ => 4
    | .empty => 1
  ((1 <<< 4) ||| stype) ::
    (((h.st.regwidth - 1) <<< 5) ||| h.st.log2m) ::
    packCutoffByte h.st :: storagePayload h.st h.storage

/-- `hll.go FromBytes`: header length, version and type checks, settings
decode and validation, then the per-type payload decode (the empty type has
no payload and ignores any trailing bytes).  The source's locals
`version = bytes[0] >> 4`, `stype = bytes[0] & 0xf`,
`regwidth = (bytes[1] >> 5) + 1`, `log2m = bytes[1] & 0x1f` and the unpacked
cutoff byte are written inline. -/
def fromBytes (bytes : List ℕ) : Except HllError Hll :=
  if bytes.length < 3 then .error .insufficientBytes
  else if bytes.getD 0 0 >>> 4 ≠ 1 then .error (.unsupportedVersion (bytes.getD 0 0 >>> 4))
  else if bytes.getD 0 0 &&& 15 < 1 ∨ 4 < bytes.getD 0 0 &&& 15 then
    .error (.invalidType (bytes.getD 0 0 &&& 15))
  else
    match toInternal ⟨bytes.getD 1 0 &&& 31, (bytes.getD 1 0 >>> 5) + 1,
        (unpackCutoffByte (bytes.getD 2 0)).2, (unpackCutoffByte (bytes.getD 2 0)).1⟩ with
    | .error e => .error e
    | .ok st =>
      if bytes.getD 0 0 &&& 15 = 2 then
        match explicitFromBytes ∅ (bytes.drop 3) with
        | .error e => .error e
        | .ok s => .ok ⟨st, .ex s⟩
      else if bytes.getD 0 0 &&& 15 = 3 then
        .ok ⟨st, .sp (sparseFromBytes st [] (bytes.drop 3))⟩
      else if bytes.getD 0 0 &&& 15 = 4 then
        match denseFromBytes st (bytes.drop 3) with
        | .error e => .error e
        | .ok s => .ok ⟨st, .ds s⟩
      else .ok ⟨st, .empty⟩

/-- The bit of a word array at the global MSB-first address `g` (the spec's
bit addressing: bit 0 is the MSB of word 0).  Register `r` of width `w`
occupies the addresses `[r*w, r*w + w)`. -/
def arrBit (s : DenseStorage) (g : ℕ) : Bool :=
  (s.getD (g / 64) 0).testBit (63 - g % 64)

/-- A storage of register type (sparse or dense), the only shapes `AddRaw`'s
register branch and the `upgrade` replay ever see. -/
def isReg : Storage → Prop
  | .sp _ => True
  | .ds _ => True
  | _ => False

/-- The invariants `AddRaw` maintains on a register storage: a surviving
sparse map is within the sparse threshold (a bigger one is promoted at once)
with in-range keys and register values, and a dense array has exactly
`denseWords` words of 64 bits. -/
def regWF (st : GoSettings) : Storage → Prop
  | .sp s => s.length ≤ st.sparseThreshold ∧
      ∀ kv ∈ s, kv.1 < 2 ^ st.log2m ∧ kv.2 < 2 ^ st.regwidth
  | .ds d => d.length = denseWords st ∧ ∀ x ∈ d, x < 2 ^ 64
  | _ => True

/-- The raw value `v` is already recorded in a register storage: either its
substream is zero (`AddRaw` ignores it) or its register holds at least its
position-of-first-one value. -/
def regCovers (st : GoSettings) : Storage → ℕ → Prop
  | .sp s, v => v >>> st.log2m = 0 ∨
      pwValue st v ≤ sparseRead s (regIndex st v)
  | .ds d, v => v >>> st.log2m = 0 ∨
      pwValue st v ≤ denseGet d (regIndex st v) st.regwidth
  | _, _ => True

deriving instance DecidableEq for Except

/-- C9: for every log2m in [4, 31] and regwidth in [1, 8], the automatically
calculated explicit threshold equals `min(131072, ceil(m * regwidth / 8) / 8)`
with integer division; concretely it is 160 for Log2m = 11, Regwidth = 5 and
384 for Log2m = 12, Regwidth = 6. -/
theorem calculateExplicitThreshold_spec :
    (∀ l w : ℕ, 4 ≤ l → l ≤ 31 → 1 ≤ w → w ≤ 8 →
      calculateExplicitThreshold l w = min 131072 (divideBy8RoundUp (2 ^ l * w) / 8)) ∧
    calculateExplicitThreshold 11 5 = 160 ∧ calculateExplicitThreshold 12 6 = 384 := by
  refine ⟨fun l w _ _ _ _ => ?_, by decide, by decide⟩
  show (if divideBy8RoundUp (w * (1 <<< l)) / 8 > 131072 then 131072
        else divideBy8RoundUp (w * (1 <<< l)) / 8) = _
  have hm : w * (1 <<< l) = 2 ^ l * w := by
    rw [Nat.shiftLeft_eq, one_mul, Nat.mul_comm]
  rw [hm]
  rcases Nat.lt_or_ge 131072 (divideBy8RoundUp (2 ^ l * w) / 8) with h | h
  · rw [if_pos h, Nat.min_eq_left (Nat.le_of_lt h)]
  · rw [if_neg (Nat.not_lt.mpr h), Nat.min_eq_right h]

/-- Witness for C9 at Log2m = 11, Regwidth = 5. -/
theorem calculateExplicitThreshold_spec_witness :
    calculateExplicitThreshold 11 5 = min 131072 (divideBy8RoundUp (2 ^ 11 * 5) / 8) :=
  calculateExplicitThreshold_spec.1 11 5 (by decide) (by decide) (by decide) (by decide)

/-- C10: for every third header byte with bit 7 set (128 ≤ b < 256), the
decoder reports sparse disabled even when bit 6 is also set, because the test
`b >> 6 == 1` fails on shifted values 2 and 3; in particular the cutoff byte
0xFF decodes as sparse disabled with the auto explicit threshold. -/
theorem unpackCutoffByte_high_bit (b : ℕ) (h128 : 128 ≤ b) (h256 : b < 256) :
    (unpackCutoffByte b).1 = false ∧ unpackCutoffByte 255 = (false, -1) := by
  refine ⟨?_, by decide⟩
  have hdiv : b >>> 6 = b / 64 := by
    rw [Nat.shiftRight_eq_div_pow]
  have hne : (b >>> 6 == 1) = false := by
    rw [hdiv]
    have h2 : 2 ≤ b / 64 := Nat.le_div_iff_mul_le (by decide) |>.mpr (by omega)
    simp only [beq_eq_false_iff_ne, ne_eq]
    omega
  unfold unpackCutoffByte
  simp only [hne]
  split
  · rfl
  · split
    · rfl
    · rfl

/-- Witness for C10 at b = 0xFF. -/
theorem unpackCutoffByte_high_bit_witness :
    (unpackCutoffByte 255).1 = false ∧ unpackCutoffByte 255 = (false, -1) :=
  unpackCutoffByte_high_bit 255 (by decide) (by decide)

/-- C2 (evaluation at the failing input): the internal settings derived from
`{Log2m 4, Regwidth 1, ExplicitThreshold 2, SparseEnabled false}` pack to the
cutoff byte `1` (the source computes `bits.Len32(2) - 1 = 1`), which decodes
back to explicit threshold `1` — not `2`, although `2` is itself a power of
two and the claim requires a power-of-two threshold to round-trip to itself.
The decoder is the faithful inverse of the storage spec (`1 << (value - 1)`);
the encoder's exponent is one too small. -/
theorem cutoffByte_roundTrip_fails :
    toInternal ⟨4, 1, 2, false⟩ = .ok ⟨4, 1, false, false, 2, 0⟩ ∧
    packCutoffByte ⟨4, 1, false, false, 2, 0⟩ = 1 ∧
    unpackCutoffByte 1 = (false, 1) ∧ ((1 : ℤ) ≠ 2) := by
  refine ⟨by decide, by decide, by decide, by decide⟩

/-- C7: AddRaw(0) on an initialized counter A leaves A completely unchanged —
the state (settings, tier and storage contents, hence also the cardinality
estimate) is the same counter, and the serialized bytes are identical; in
particular no storage is allocated and no promotion occurs, since the source
returns before the bootstrap, the tier dispatch and the capacity check. -/
theorem addRaw_zero_noop (h : Hll) :
    addRaw h 0 = h ∧ toBytes (addRaw h 0) = toBytes h := by
  have h0 : addRaw h 0 = h := by simp [addRaw]
  exact ⟨h0, by rw [h0]⟩

/-- C5 (evaluation at the failing input): counter B with settings
Log2m = 4, Regwidth = 8, explicit disabled, sparse enabled receives
AddRaw(4096), storing sparse register 0 := 9.  A non-strict union of B into an
empty counter A with Log2m = 4, Regwidth = 1 deep-copies the sparse map
without any masking, leaving A with stored register value 9 even though A's
max_reg_value is 1 — the invariant claimed by the spec is violated.  (The
non-empty-target path is no better: it masks with byte(mBitsMask), the index
mask, not the register mask.) -/
theorem sparse_union_exceeds_maxRegValue :
    toInternal ⟨4, 8, 0, true⟩ = .ok ⟨4, 8, false, true, 0, 8⟩ ∧
    toInternal ⟨4, 1, 0, true⟩ = .ok ⟨4, 1, false, true, 0, 2⟩ ∧
    addRaw ⟨⟨4, 8, false, true, 0, 8⟩, .empty⟩ 4096
      = ⟨⟨4, 8, false, true, 0, 8⟩, .sp [(0, 9)]⟩ ∧
    unionModel ⟨⟨4, 1, false, true, 0, 2⟩, .empty⟩ ⟨⟨4, 8, false, true, 0, 8⟩, .sp [(0, 9)]⟩
      = ⟨⟨4, 1, false, true, 0, 2⟩, .sp [(0, 9)]⟩ ∧
    maxRegValue ⟨4, 1, false, true, 0, 2⟩ = 1 ∧ 9 > 1 := by
  refine ⟨by decide, by decide, by decide, by decide, by decide, by decide⟩

/-- C3 (evaluation at the failing input): with Log2m = 4, Regwidth = 8 the
streaming dense union masks each register with `mBitsMask << (64 - regwidth)`,
which covers only the low 4 of the 8 register bits.  Counter A holds dense
register 0 = 16 (from AddRaw(2^19)); counter B holds all-zero dense registers
(AddRaw(1) allocates but writes nothing).  Union of B into A keeps A's words,
while union of A into B leaves B all zero, because 16's only set bit lies
outside the mask: the two unions differ bitwise and the resulting register is
not the max of the inputs. -/
theorem dense_union_not_commutative :
    toInternal ⟨4, 8, 0, false⟩ = .ok ⟨4, 8, false, false, 0, 0⟩ ∧
    addRaw ⟨⟨4, 8, false, false, 0, 0⟩, .empty⟩ 524288
      = ⟨⟨4, 8, false, false, 0, 0⟩, .ds [2 ^ 60, 0]⟩ ∧
    addRaw ⟨⟨4, 8, false, false, 0, 0⟩, .empty⟩ 1
      = ⟨⟨4, 8, false, false, 0, 0⟩, .ds [0, 0]⟩ ∧
    unionModel ⟨⟨4, 8, false, false, 0, 0⟩, .ds [2 ^ 60, 0]⟩
        ⟨⟨4, 8, false, false, 0, 0⟩, .ds [0, 0]⟩
      = ⟨⟨4, 8, false, false, 0, 0⟩, .ds [2 ^ 60, 0]⟩ ∧
    unionModel ⟨⟨4, 8, false, false, 0, 0⟩, .ds [0, 0]⟩
        ⟨⟨4, 8, false, false, 0, 0⟩, .ds [2 ^ 60, 0]⟩
      = ⟨⟨4, 8, false, false, 0, 0⟩, .ds [0, 0]⟩ ∧
    denseGet [2 ^ 60, 0] 0 8 = 16 ∧ denseGet [0, 0] 0 8 = 0 := by
  refine ⟨by decide, by decide, by decide, by decide, by decide, by decide, by decide⟩

/-- C1 (evaluation at the failing input): with Log2m = 4, Regwidth = 1 a
sparse counter holding registers 0 ↦ 1, 1 ↦ 1 (after AddRaw(16), AddRaw(17))
serializes to a 2-byte payload holding two 5-bit words plus 6 padding bits.
The decoder reads floor(16/5) = 3 words, so the third, all-zero padding word
is decoded as register 0 := 0, overwriting register 0's real value: the
round-tripped storage differs from the original and even the register values
disagree. -/
theorem sparse_roundTrip_corrupts_register_zero :
    toInternal ⟨4, 1, 0, true⟩ = .ok ⟨4, 1, false, true, 0, 2⟩ ∧
    addRaw (addRaw ⟨⟨4, 1, false, true, 0, 2⟩, .empty⟩ 16) 17
      = ⟨⟨4, 1, false, true, 0, 2⟩, .sp [(0, 1), (1, 1)]⟩ ∧
    toBytes ⟨⟨4, 1, false, true, 0, 2⟩, .sp [(0, 1), (1, 1)]⟩ = [19, 4, 64, 8, 192] ∧
    fromBytes [19, 4, 64, 8, 192]
      = .ok ⟨⟨4, 1, false, true, 0, 2⟩, .sp [(0, 0), (1, 1)]⟩ ∧
    (Storage.sp [(0, 0), (1, 1)] ≠ Storage.sp [(0, 1), (1, 1)]) ∧
    sparseRead [(0, 0), (1, 1)] 0 = 0 ∧ sparseRead [(0, 1), (1, 1)] 0 = 1 := by
  refine ⟨by decide, by decide, by decide, by decide, by decide, by decide, by decide⟩

lemma validateSettings_none_iff (s : GoSettingsExt) :
    validateSettings s = none ↔
      (4 ≤ s.Log2m ∧ s.Log2m ≤ 31 ∧ 1 ≤ s.Regwidth ∧ s.Regwidth ≤ 8 ∧
       -1 ≤ s.ExplicitThreshold ∧ s.ExplicitThreshold ≤ 131072) := by
  unfold validateSettings
  split_ifs <;> simp_all
  all_goals omega

lemma toInternal_ok_iff (s : GoSettingsExt) :
    (∃ st, toInternal s = .ok st) ↔ validateSettings s = none := by
  unfold toInternal
  rcases h : validateSettings s with _ | e
  · simp
  · simp

lemma unpackCutoffByte_snd_range (b : ℕ) :
    -1 ≤ (unpackCutoffByte b).2 ∧
      ((unpackCutoffByte b).2 ≤ 131072 ↔ ¬(19 ≤ b &&& 63 ∧ b &&& 63 ≤ 62)) := by
  have htle : b &&& 63 ≤ 63 := Nat.and_le_right
  unfold unpackCutoffByte
  by_cases h0 : b &&& 63 = 0
  · simp [h0]
  · by_cases h63 : b &&& 63 = 63
    · simp [h0, h63]
    · simp only [h0, h63, if_false]
      have hp : (0 : ℤ) ≤ 2 ^ ((b &&& 63) - 1) := pow_nonneg (by norm_num) _
      refine ⟨le_trans (by norm_num : (-1 : ℤ) ≤ 0) hp, ?_⟩
      have h131 : (131072 : ℤ) = 2 ^ 17 := by norm_num
      rw [h131, pow_le_pow_iff_right₀ (by norm_num : (1 : ℤ) < 2)]
      omega

lemma explicitFromBytes_ok_iff (s : ExplicitStorage) (bytes : List ℕ) :
    (∃ r, explicitFromBytes s bytes = .ok r) ↔ bytes.length % 8 = 0 := by
  unfold explicitFromBytes
  by_cases h : bytes.length % 8 = 0 <;> simp [h]

lemma denseFromBytes_ok_iff (st : GoSettings) (bytes : List ℕ) :
    (∃ r, denseFromBytes st bytes = .ok r) ↔ bytes.length = denseSizeInBytes st := by
  unfold denseFromBytes
  by_cases h : bytes.length = denseSizeInBytes st <;> simp [h]

lemma toInternal_ok_fields {s : GoSettingsExt} {st : GoSettings}
    (h : toInternal s = .ok st) :
    st.log2m = s.Log2m ∧ st.regwidth = s.Regwidth := by
  unfold toInternal at h
  rcases hvs : validateSettings s with _ | e
  · rw [hvs] at h
    simp only [Except.ok.injEq] at h
    rw [← h]
    exact ⟨rfl, rfl⟩
  · rw [hvs] at h
    exact absurd h (by simp)

lemma getD_lt_of_forall {l : List ℕ} (hb : ∀ b ∈ l, b < 256) (i : ℕ)
    (hi : i < l.length) : l.getD i 0 < 256 := by
  rw [List.getD_eq_getElem?_getD, List.getElem?_eq_getElem hi]
  exact hb _ (List.getElem_mem hi)

/-- C8 (counterexample to the claim as stated): the buffer 0x11 0x00 0x40 has
3 header bytes, version nibble 1 and type nibble 1 (empty, so no payload
constraint applies); by the claim FromBytes must succeed, yet the code
rejects it: the decoded Log2m = 0 fails settings validation, an error case
the claim does not list. -/
theorem fromBytes_rejects_small_log2m :
    [17, 0, 64].length ≥ 3 ∧ (17 : ℕ) >>> 4 = 1 ∧ (17 : ℕ) &&& 15 = 1 ∧
      fromBytes [17, 0, 64] = .error .log2mTooSmall := by
  refine ⟨by decide, by decide, by decide, by decide⟩

/-- C8 (amended): for a byte buffer (entries below 256), FromBytes succeeds
iff: at least 3 header bytes; version nibble = 1; type nibble in [1, 4]; the
decoded settings are valid, i.e. log2m ≥ 4 (the other header fields cannot be
out of range) and the cutoff byte's threshold bits are not in [19, 62] (those
decode to an explicit threshold above 131072); for an explicit payload the
length is a multiple of 8; and for a dense payload the length is exactly
ceil(m·regwidth/8).  Sparse payloads of any length are accepted, as are
trailing bytes after an empty-type header. -/
theorem fromBytes_ok_characterization (bytes : List ℕ) (hb : ∀ b ∈ bytes, b < 256) :
    (∃ h, fromBytes bytes = .ok h) ↔
      (3 ≤ bytes.length ∧
       bytes.getD 0 0 >>> 4 = 1 ∧
       1 ≤ bytes.getD 0 0 &&& 15 ∧ bytes.getD 0 0 &&& 15 ≤ 4 ∧
       4 ≤ bytes.getD 1 0 &&& 31 ∧
       ¬(19 ≤ bytes.getD 2 0 &&& 63 ∧ bytes.getD 2 0 &&& 63 ≤ 62) ∧
       (bytes.getD 0 0 &&& 15 = 2 → (bytes.length - 3) % 8 = 0) ∧
       (bytes.getD 0 0 &&& 15 = 4 →
         bytes.length - 3 =
           divideBy8RoundUp ((1 <<< (bytes.getD 1 0 &&& 31)) * (bytes.getD 1 0 >>> 5 + 1)))) := by
  unfold fromBytes
  by_cases h3 : bytes.length < 3
  · rw [if_pos h3]
    constructor
    · rintro ⟨h, hh⟩
      exact absurd hh (by simp)
    · rintro ⟨hlen, -⟩
      exact absurd hlen (by omega)
  rw [if_neg h3]
  by_cases hv : bytes.getD 0 0 >>> 4 = 1
  swap
  · rw [if_pos hv]
    constructor
    · rintro ⟨h, hh⟩
      exact absurd hh (by simp)
    · rintro ⟨-, h2, -⟩
      exact absurd h2 hv
  rw [if_neg (not_not_intro hv)]
  by_cases ht : bytes.getD 0 0 &&& 15 < 1 ∨ 4 < bytes.getD 0 0 &&& 15
  · rw [if_pos ht]
    constructor
    · rintro ⟨h, hh⟩
      exact absurd hh (by simp)
    · rintro ⟨-, -, ht1, ht4, -⟩
      rcases ht with h | h
      · exact absurd ht1 (by omega)
      · exact absurd ht4 (by omega)
  rw [if_neg ht]
  push_neg at ht
  have h3' : 3 ≤ bytes.length := Nat.not_lt.mp h3
  have hby1 : bytes.getD 1 0 < 256 := getD_lt_of_forall hb 1 (by omega)
  have hw8 : (bytes.getD 1 0 >>> 5) + 1 ≤ 8 := by
    have hdiv : bytes.getD 1 0 >>> 5 = bytes.getD 1 0 / 32 := by
      rw [Nat.shiftRight_eq_div_pow]
    omega
  have hl31 : bytes.getD 1 0 &&& 31 ≤ 31 := Nat.and_le_right
  obtain ⟨hcut1, hcut2⟩ := unpackCutoffByte_snd_range (bytes.getD 2 0)
  rcases hti : toInternal ⟨bytes.getD 1 0 &&& 31, (bytes.getD 1 0 >>> 5) + 1,
      (unpackCutoffByte (bytes.getD 2 0)).2, (unpackCutoffByte (bytes.getD 2 0)).1⟩
    with e | st
  · simp only [hti]
    have hvn : validateSettings ⟨bytes.getD 1 0 &&& 31, (bytes.getD 1 0 >>> 5) + 1,
        (unpackCutoffByte (bytes.getD 2 0)).2, (unpackCutoffByte (bytes.getD 2 0)).1⟩ ≠
        none := by
      intro hnone
      obtain ⟨st, hst⟩ := (toInternal_ok_iff _).mpr hnone
      rw [hti] at hst
      exact absurd hst (by simp)
    simp only [ne_eq, validateSettings_none_iff] at hvn
    constructor
    · rintro ⟨h, hh⟩
      exact absurd hh (by simp)
    · rintro ⟨-, -, -, -, hl4, hcut, -, -⟩
      exact absurd ⟨hl4, hl31, Nat.le_add_left 1 _, hw8, hcut1, hcut2.mpr hcut⟩ hvn
  · simp only [hti]
    have hvn : validateSettings ⟨bytes.getD 1 0 &&& 31, (bytes.getD 1 0 >>> 5) + 1,
        (unpackCutoffByte (bytes.getD 2 0)).2, (unpackCutoffByte (bytes.getD 2 0)).1⟩ =
        none := (toInternal_ok_iff _).mp ⟨st, hti⟩
    rw [validateSettings_none_iff] at hvn
    obtain ⟨hl4, -, -, -, -, hcutle⟩ := hvn
    have hcutrhs := hcut2.mp hcutle
    obtain ⟨hstl, hstw⟩ := toInternal_ok_fields hti
    have hdropl : (bytes.drop 3).length = bytes.length - 3 := List.length_drop 3 bytes
    by_cases h2' : bytes.getD 0 0 &&& 15 = 2
    · rw [if_pos h2']
      rcases he : explicitFromBytes ∅ (bytes.drop 3) with e | s
      · have hmod : ¬ (bytes.drop 3).length % 8 = 0 := by
          intro hmod
          obtain ⟨r, hr⟩ := (explicitFromBytes_ok_iff ∅ (bytes.drop 3)).mpr hmod
          rw [he] at hr
          exact absurd hr (by simp)
        constructor
        · rintro ⟨h, hh⟩
          exact absurd hh (by simp)
        · rintro ⟨-, -, -, -, -, -, hm, -⟩
          rw [hdropl] at hmod
          exact absurd (hm h2') hmod
      · constructor
        · rintro -
          have hmod : (bytes.drop 3).length % 8 = 0 := by
            have := (explicitFromBytes_ok_iff ∅ (bytes.drop 3)).mp ⟨s, he⟩
            exact this
          refine ⟨h3', hv, ht.1, ht.2, hl4, hcutrhs, fun _ => ?_, fun hq => by omega⟩
          rw [← hdropl]
          exact hmod
        · rintro -
          exact ⟨_, rfl⟩
    rw [if_neg h2']
    by_cases h3t : bytes.getD 0 0 &&& 15 = 3
    · rw [if_pos h3t]
      constructor
      · rintro -
        exact ⟨h3', hv, ht.1, ht.2, hl4, hcutrhs, fun hq => absurd hq h2',
          fun hq => by omega⟩
      · rintro -
        exact ⟨_, rfl⟩
    rw [if_neg h3t]
    by_cases h4t : bytes.getD 0 0 &&& 15 = 4
    · rw [if_pos h4t]
      have hsize : denseSizeInBytes st =
          divideBy8RoundUp ((1 <<< (bytes.getD 1 0 &&& 31)) * (bytes.getD 1 0 >>> 5 + 1)) := by
        unfold denseSizeInBytes
        rw [hstl, hstw]
      rcases he : denseFromBytes st (bytes.drop 3) with e | s
      · have hlen : ¬ (bytes.drop 3).length = denseSizeInBytes st := by
          intro hlen
          obtain ⟨r, hr⟩ := (denseFromBytes_ok_iff st (bytes.drop 3)).mpr hlen
          rw [he] at hr
          exact absurd hr (by simp)
        constructor
        · rintro ⟨h, hh⟩
          exact absurd hh (by simp)
        · rintro ⟨-, -, -, -, -, -, -, hm⟩
          rw [← hdropl, ← hsize] at hm
          exact absurd (hm h4t) hlen
      · constructor
        · rintro -
          have hlen := (denseFromBytes_ok_iff st (bytes.drop 3)).mp ⟨s, he⟩
          refine ⟨h3', hv, ht.1, ht.2, hl4, hcutrhs, fun hq => absurd hq h2', fun _ => ?_⟩
          rw [← hdropl, hlen, hsize]
        · rintro -
          exact ⟨_, rfl⟩
    rw [if_neg h4t]
    constructor
    · rintro -
      exact ⟨h3', hv, ht.1, ht.2, hl4, hcutrhs, fun hq => absurd hq h2',
        fun hq => absurd hq h4t⟩
    · rintro -
      exact ⟨_, rfl⟩

/-- Witness for C8 at the concrete buffer 0x11 0x04 0x40 (empty counter with
Log2m = 4, Regwidth = 1, sparse enabled), which decodes successfully. -/
theorem fromBytes_ok_characterization_witness :
    (∀ b ∈ [17, 4, 64], b < 256) ∧ (∃ h, fromBytes [17, 4, 64] = .ok h) :=
  ⟨by decide, (fromBytes_ok_characterization [17, 4, 64] (by decide)).mpr (by decide)⟩

lemma testBit_extract (x a b t : ℕ) :
    ((x >>> a) % 2 ^ b).testBit t = (decide (t < b) && x.testBit (a + t)) := by
  rw [Nat.testBit_mod_two_pow, Nat.testBit_shiftRight]

lemma extract_congr {x₁ x₂ : ℕ} (a b : ℕ)
    (h : ∀ t, a ≤ t → t < a + b → x₁.testBit t = x₂.testBit t) :
    (x₁ >>> a) % 2 ^ b = (x₂ >>> a) % 2 ^ b := by
  apply Nat.eq_of_testBit_eq
  intro t
  rw [testBit_extract, testBit_extract]
  by_cases ht : t < b
  · rw [h (a + t) (Nat.le_add_right a t) (by omega)]
  · simp [ht]

lemma mod_pow_congr {x₁ x₂ : ℕ} (b : ℕ)
    (h : ∀ t, t < b → x₁.testBit t = x₂.testBit t) : x₁ % 2 ^ b = x₂ % 2 ^ b := by
  have := @extract_congr x₁ x₂ 0 b (fun t _ ht => h t (by omega))
  simpa using this

lemma shiftRight_congr {x₁ x₂ : ℕ} (a : ℕ) (h₁ : x₁ < 2 ^ 64) (h₂ : x₂ < 2 ^ 64)
    (h : ∀ t, a ≤ t → t < 64 → x₁.testBit t = x₂.testBit t) : x₁ >>> a = x₂ >>> a := by
  have hsr : ∀ x : ℕ, x >>> a ≤ x := fun x => by
    rw [Nat.shiftRight_eq_div_pow]
    exact Nat.div_le_self x (2 ^ a)
  have hx₁ : (x₁ >>> a) % 2 ^ 64 = x₁ >>> a :=
    Nat.mod_eq_of_lt (lt_of_le_of_lt (hsr x₁) h₁)
  have hx₂ : (x₂ >>> a) % 2 ^ 64 = x₂ >>> a :=
    Nat.mod_eq_of_lt (lt_of_le_of_lt (hsr x₂) h₂)
  rw [← hx₁, ← hx₂]
  apply extract_congr
  intro t hat ht
  by_cases h64 : t < 64
  · exact h t hat h64
  · rw [Nat.testBit_lt_two_pow (lt_of_lt_of_le h₁ (Nat.pow_le_pow_right (by norm_num) (by omega))),
        Nat.testBit_lt_two_pow (lt_of_lt_of_le h₂ (Nat.pow_le_pow_right (by norm_num) (by omega)))]

lemma testBit_compl64 {x : ℕ} (hx : x < 2 ^ 64) (b : ℕ) :
    (compl64 x).testBit b = (decide (b < 64) && !(x.testBit b)) := by
  unfold compl64
  rw [Nat.testBit_xor, Nat.testBit_two_pow_sub_one]
  by_cases hb : b < 64
  · simp [hb]
  · simp only [hb, decide_False, Bool.false_and, Bool.false_xor]
    exact Nat.testBit_lt_two_pow (lt_of_lt_of_le hx (Nat.pow_le_pow_right (by norm_num) (by omega)))

lemma compl64_lt {x : ℕ} (hx : x < 2 ^ 64) : compl64 x < 2 ^ 64 :=
  Nat.xor_lt_two_pow (by norm_num) hx

lemma shiftLeft_or_eq_add {a b k : ℕ} (hb : b < 2 ^ k) : (a <<< k) ||| b = a <<< k + b := by
  apply Nat.eq_of_testBit_eq
  intro t
  have hadd : a <<< k + b = 2 ^ k * a + b := by
    rw [Nat.shiftLeft_eq, Nat.mul_comm]
  rw [Nat.testBit_or, hadd, Nat.testBit_mul_pow_two_add a hb t, Nat.testBit_shiftLeft]
  by_cases ht : t < k
  · simp [ht, Nat.not_le.mpr ht]
  · simp only [ht, if_false]
    rw [Nat.testBit_lt_two_pow (lt_of_lt_of_le hb (Nat.pow_le_pow_right (by norm_num) (by omega)))]
    simp [Nat.not_lt.mp ht]

lemma set_getD_self (s : List ℕ) (k : ℕ) : s.set k (s.getD k 0) = s := by
  induction s generalizing k with
  | nil => rfl
  | cons a t ih =>
    cases k with
    | zero => simp [List.set]
    | succ k =>
      simp only [List.set, List.getD_cons_succ, List.cons.injEq, true_and]
      exact ih k

lemma getD_set (s : List ℕ) (k t x : ℕ) :
    (s.set k x).getD t 0 = if k = t ∧ k < s.length then x else s.getD t 0 := by
  induction s generalizing k t with
  | nil => simp [List.set]
  | cons a l ih =>
    cases k with
    | zero =>
      cases t with
      | zero => simp [List.set]
      | succ t => simp [List.set]
    | succ k =>
      cases t with
      | zero => simp [List.set]
      | succ t =>
        simp only [List.set, List.getD_cons_succ, List.length_cons, ih k t]
        by_cases hkt : k = t ∧ k < l.length
        · rw [if_pos hkt, if_pos ⟨by omega, by omega⟩]
        · rw [if_neg hkt, if_neg (by omega)]

lemma divideBy8RoundUp_eq (x : ℕ) : divideBy8RoundUp x = (x + 7) / 8 := by
  unfold divideBy8RoundUp
  have h1 : x >>> 3 = x / 8 := Nat.shiftRight_eq_div_pow x 3
  have h2 : x &&& 7 = x % 8 := Nat.and_pow_two_sub_one_eq_mod x 3
  rw [h1, h2]
  by_cases h : x % 8 > 0
  · rw [if_pos h]
    omega
  · rw [if_neg h]
    omega

lemma le_mul_denseWords (st : GoSettings) :
    (1 <<< st.log2m) * st.regwidth ≤ 64 * denseWords st := by
  unfold denseWords
  rw [divideBy8RoundUp_eq, divideBy8RoundUp_eq]
  omega

lemma getD_lt64 {s : List ℕ} (hb : ∀ x ∈ s, x < 2 ^ 64) (k : ℕ) : s.getD k 0 < 2 ^ 64 := by
  by_cases hk : k < s.length
  · rw [List.getD_eq_getElem?_getD, List.getElem?_eq_getElem hk]
    exact hb _ (List.getElem_mem hk)
  · rw [List.getD_eq_getElem?_getD, List.getElem?_eq_none (by omega)]
    exact Nat.pos_pow_of_pos 64 (by norm_num)

lemma mask_extract_eq (x sh w : ℕ) :
    (((2 ^ w - 1) <<< sh) &&& x) >>> sh = (x >>> sh) % 2 ^ w := by
  apply Nat.eq_of_testBit_eq
  intro t
  rw [testBit_extract, Nat.testBit_shiftRight, Nat.testBit_and, Nat.testBit_shiftLeft,
      Nat.testBit_two_pow_sub_one]
  have hc : sh + t ≥ sh := Nat.le_add_right sh t
  have hst : sh + t - sh = t := by omega
  simp only [hc, decide_True, Bool.true_and, hst]

lemma mod256_absorb {y w : ℕ} (hw : w ≤ 8) (hy : y < 2 ^ w) : y % 256 = y := by
  apply Nat.mod_eq_of_lt
  calc y < 2 ^ w := hy
    _ ≤ 2 ^ 8 := Nat.pow_le_pow_right (by norm_num) hw
    _ = 256 := by norm_num

lemma shiftLeft_one_sub_one (w : ℕ) : (1 <<< w) - 1 = 2 ^ w - 1 := by
  rw [Nat.shiftLeft_eq, one_mul]

/-- Unfolding equation for `denseGet` (the `let`-bound locals inlined). -/
lemma denseGet_def (s : DenseStorage) (regnum regwidth : ℕ) :
    denseGet s regnum regwidth =
      if (regnum * regwidth &&& 63) + regwidth ≤ 64 then
        ((((1 <<< regwidth) - 1) <<<
            (if (regnum * regwidth &&& 63) + regwidth < 64
             then 64 - ((regnum * regwidth &&& 63) + regwidth) else 0) &&&
          s.getD ((regnum * regwidth) >>> 6) 0) >>>
            (if (regnum * regwidth &&& 63) + regwidth < 64
             then 64 - ((regnum * regwidth &&& 63) + regwidth) else 0)) % 256
      else
        (((s.getD ((regnum * regwidth) >>> 6) 0 &&&
            ((1 <<< (64 - (regnum * regwidth &&& 63))) - 1)) <<<
              (regwidth - (64 - (regnum * regwidth &&& 63)))) |||
          (s.getD ((regnum * regwidth) >>> 6 + 1) 0 >>>
            (64 - (regwidth - (64 - (regnum * regwidth &&& 63)))))) % 256 := rfl

lemma denseGet_single_eq (s : DenseStorage) (j w : ℕ) (hw8 : w ≤ 8)
    (hsingle : j * w % 64 + w ≤ 64) :
    denseGet s j w = (s.getD (j * w / 64) 0 >>> (64 - j * w % 64 - w)) % 2 ^ w := by
  have hpos : j * w &&& 63 = j * w % 64 := Nat.and_pow_two_sub_one_eq_mod _ 6
  have hidx : (j * w) >>> 6 = j * w / 64 := Nat.shiftRight_eq_div_pow _ 6
  rw [denseGet_def, hpos, hidx, if_pos hsingle]
  have hsh : (if j * w % 64 + w < 64 then 64 - (j * w % 64 + w) else 0)
      = 64 - j * w % 64 - w := by
    split <;> omega
  rw [hsh, shiftLeft_one_sub_one, mask_extract_eq]
  exact mod256_absorb hw8 (Nat.mod_lt _ (Nat.pos_pow_of_pos w (by norm_num)))

lemma denseGet_straddle_eq (s : DenseStorage) (j w : ℕ) (hw8 : w ≤ 8)
    (hstrad : 64 < j * w % 64 + w)
    (_hx : s.getD (j * w / 64) 0 < 2 ^ 64) (hy : s.getD (j * w / 64 + 1) 0 < 2 ^ 64) :
    denseGet s j w =
      (s.getD (j * w / 64) 0 % 2 ^ (64 - j * w % 64)) * 2 ^ (w - (64 - j * w % 64)) +
        s.getD (j * w / 64 + 1) 0 >>> (64 - (w - (64 - j * w % 64))) := by
  have hpos : j * w &&& 63 = j * w % 64 := Nat.and_pow_two_sub_one_eq_mod _ 6
  have hidx : (j * w) >>> 6 = j * w / 64 := Nat.shiftRight_eq_div_pow _ 6
  have hposlt : j * w % 64 < 64 := Nat.mod_lt _ (by norm_num)
  have hups : (64 - j * w % 64) + (w - (64 - j * w % 64)) = w := by omega
  rw [denseGet_def, hpos, hidx, if_neg (by omega), shiftLeft_one_sub_one,
      Nat.and_pow_two_sub_one_eq_mod]
  have hlow : s.getD (j * w / 64 + 1) 0 >>> (64 - (w - (64 - j * w % 64)))
      < 2 ^ (w - (64 - j * w % 64)) := by
    rw [Nat.shiftRight_eq_div_pow]
    rw [Nat.div_lt_iff_lt_mul (Nat.pos_pow_of_pos _ (by norm_num)), ← Nat.pow_add]
    have he : w - (64 - j * w % 64) + (64 - (w - (64 - j * w % 64))) = 64 := by omega
    rw [he]
    exact hy
  rw [shiftLeft_or_eq_add hlow, Nat.shiftLeft_eq]
  apply mod256_absorb hw8
  have hupb : s.getD (j * w / 64) 0 % 2 ^ (64 - j * w % 64) < 2 ^ (64 - j * w % 64) :=
    Nat.mod_lt _ (Nat.pos_pow_of_pos _ (by norm_num))
  calc s.getD (j * w / 64) 0 % 2 ^ (64 - j * w % 64) * 2 ^ (w - (64 - j * w % 64)) +
        s.getD (j * w / 64 + 1) 0 >>> (64 - (w - (64 - j * w % 64)))
      < (s.getD (j * w / 64) 0 % 2 ^ (64 - j * w % 64) + 1) * 2 ^ (w - (64 - j * w % 64)) := by
        rw [Nat.add_mul, one_mul]
        omega
    _ ≤ 2 ^ (64 - j * w % 64) * 2 ^ (w - (64 - j * w % 64)) := by
        apply Nat.mul_le_mul_right
        omega
    _ = 2 ^ w := by rw [← Nat.pow_add, hups]

/-- The masked-OR register write on one word: writes the `w`-bit value `v`
into bits `[sh, sh + w)` (LSB indexed) of `x`, leaving the other bits
unchanged. -/
lemma updWord_spec {x v : ℕ} (sh w : ℕ) (hx : x < 2 ^ 64)
    (hsw : sh + w ≤ 64) :
    ((compl64 (((2 : ℕ) ^ w - 1) <<< sh) &&& x) ||| ((v &&& (2 ^ w - 1)) <<< sh)) < 2 ^ 64 ∧
    ((((compl64 ((2 ^ w - 1) <<< sh) &&& x) ||| ((v &&& (2 ^ w - 1)) <<< sh)) >>> sh) % 2 ^ w
      = v % 2 ^ w) ∧
    (∀ t, t < sh ∨ sh + w ≤ t →
      ((compl64 ((2 ^ w - 1) <<< sh) &&& x) ||| ((v &&& (2 ^ w - 1)) <<< sh)).testBit t
        = x.testBit t) := by
  have hmaskb : ((2 : ℕ) ^ w - 1) <<< sh < 2 ^ 64 := by
    rw [Nat.shiftLeft_eq]
    calc (2 ^ w - 1) * 2 ^ sh < 2 ^ w * 2 ^ sh :=
          mul_lt_mul_of_pos_right (Nat.sub_lt (Nat.pos_pow_of_pos _ (by norm_num)) (by norm_num))
            (Nat.pos_pow_of_pos _ (by norm_num))
      _ = 2 ^ (w + sh) := by rw [← Nat.pow_add]
      _ ≤ 2 ^ 64 := Nat.pow_le_pow_right (by norm_num) (by omega)
  have hvb : (v &&& (2 ^ w - 1)) <<< sh < 2 ^ 64 := by
    rw [Nat.and_pow_two_sub_one_eq_mod, Nat.shiftLeft_eq]
    calc v % 2 ^ w * 2 ^ sh < 2 ^ w * 2 ^ sh :=
          mul_lt_mul_of_pos_right (Nat.mod_lt _ (Nat.pos_pow_of_pos _ (by norm_num)))
            (Nat.pos_pow_of_pos _ (by norm_num))
      _ = 2 ^ (w + sh) := by rw [← Nat.pow_add]
      _ ≤ 2 ^ 64 := Nat.pow_le_pow_right (by norm_num) (by omega)
  have hmt : ∀ t : ℕ, (((2 : ℕ) ^ w - 1) <<< sh).testBit t = (decide (sh ≤ t) && decide (t - sh < w)) := by
    intro t
    rw [Nat.testBit_shiftLeft, Nat.testBit_two_pow_sub_one]
  have hvt : ∀ t : ℕ, ((v &&& ((2 : ℕ) ^ w - 1)) <<< sh).testBit t
      = (decide (sh ≤ t) && (v.testBit (t - sh) && decide (t - sh < w))) := by
    intro t
    rw [Nat.testBit_shiftLeft, Nat.testBit_and, Nat.testBit_two_pow_sub_one]
  refine ⟨Nat.or_lt_two_pow (lt_of_le_of_lt Nat.and_le_right hx) hvb, ?_, ?_⟩
  · apply Nat.eq_of_testBit_eq
    intro t
    rw [testBit_extract, Nat.testBit_or, Nat.testBit_and,
        testBit_compl64 hmaskb, hmt, hvt]
    rw [Nat.testBit_mod_two_pow]
    by_cases htw : t < w
    · have h1 : sh ≤ sh + t := Nat.le_add_right _ _
      have h2 : sh + t - sh = t := by omega
      have h3 : sh + t < 64 := by omega
      simp [h1, h2, h3, htw]
    · simp [htw]
  · intro t ht
    rw [Nat.testBit_or, Nat.testBit_and, testBit_compl64 hmaskb, hmt, hvt]
    rcases ht with ht | ht
    · have h1 : ¬ sh ≤ t := by omega
      have h2 : t < 64 := by omega
      simp [h1, h2]
    · have h1 : ¬ (t - sh < w) := by omega
      by_cases h2 : t < 64
      · simp [h1, h2]
      · have hxf : x.testBit t = false :=
          Nat.testBit_lt_two_pow (lt_of_lt_of_le hx (Nat.pow_le_pow_right (by norm_num) (by omega)))
        simp [h1, h2, hxf]

/-- Two dense storages whose bits agree across register `j`'s window hold the
same value for register `j`. -/
lemma denseGet_congr {s₁ s₂ : DenseStorage} (j w : ℕ) (hw8 : w ≤ 8)
    (hb₁ : ∀ k, s₁.getD k 0 < 2 ^ 64) (hb₂ : ∀ k, s₂.getD k 0 < 2 ^ 64)
    (hag : ∀ g, j * w ≤ g → g < j * w + w → arrBit s₁ g = arrBit s₂ g) :
    denseGet s₁ j w = denseGet s₂ j w := by
  have hagw : ∀ d t, t ≤ 63 → j * w ≤ 64 * (j * w / 64 + d) + (63 - t) →
      64 * (j * w / 64 + d) + (63 - t) < j * w + w →
      (s₁.getD (j * w / 64 + d) 0).testBit t = (s₂.getD (j * w / 64 + d) 0).testBit t := by
    intro d t ht h1 h2
    have hbit := hag (64 * (j * w / 64 + d) + (63 - t)) h1 h2
    unfold arrBit at hbit
    have hdiv : (64 * (j * w / 64 + d) + (63 - t)) / 64 = j * w / 64 + d := by omega
    have hmod : 63 - (64 * (j * w / 64 + d) + (63 - t)) % 64 = t := by omega
    rw [hdiv, hmod] at hbit
    exact hbit
  by_cases hsingle : j * w % 64 + w ≤ 64
  · rw [denseGet_single_eq s₁ j w hw8 hsingle, denseGet_single_eq s₂ j w hw8 hsingle]
    apply extract_congr
    intro t h1 h2
    have h := hagw 0 t (by omega) (by omega) (by omega)
    simpa using h
  · rw [denseGet_straddle_eq s₁ j w hw8 (by omega) (hb₁ _) (hb₁ _),
        denseGet_straddle_eq s₂ j w hw8 (by omega) (hb₂ _) (hb₂ _)]
    congr 1
    · congr 1
      apply mod_pow_congr
      intro t ht
      have h := hagw 0 t (by omega) (by omega) (by omega)
      simpa using h
    · apply shiftRight_congr _ (hb₁ _) (hb₂ _)
      intro t h1 h2
      exact hagw 1 t (by omega) (by omega) (by omega)

/-- Branch characterization of `denseSetIfGreater` when the register lies in
one word: the comparison is against the register value, and the write is the
masked OR of `updWord_spec`. -/
lemma denseSetIfGreater_eq_single (st : GoSettings) (s : DenseStorage) (i v : ℕ)
    (hw8 : st.regwidth ≤ 8)
    (hsingle : i * st.regwidth % 64 + st.regwidth ≤ 64) :
    denseSetIfGreater st s i v =
      if denseGet s i st.regwidth < v then
        s.set (i * st.regwidth / 64)
          ((compl64 ((2 ^ st.regwidth - 1) <<<
              (64 - i * st.regwidth % 64 - st.regwidth)) &&&
            s.getD (i * st.regwidth / 64) 0) |||
            ((v &&& (2 ^ st.regwidth - 1)) <<<
              (64 - i * st.regwidth % 64 - st.regwidth)))
      else s := by
  have hpos : i * st.regwidth &&& 63 = i * st.regwidth % 64 :=
    Nat.and_pow_two_sub_one_eq_mod _ 6
  have hidx : (i * st.regwidth) >>> 6 = i * st.regwidth / 64 :=
    Nat.shiftRight_eq_div_pow _ 6
  simp only [denseSetIfGreater]
  rw [hpos, hidx, if_pos hsingle]
  have hsh : (if i * st.regwidth % 64 + st.regwidth < 64
      then 64 - (i * st.regwidth % 64 + st.regwidth) else 0)
      = 64 - i * st.regwidth % 64 - st.regwidth := by
    split <;> omega
  rw [hsh, shiftLeft_one_sub_one]
  have hcurr : (((2 ^ st.regwidth - 1) <<< (64 - i * st.regwidth % 64 - st.regwidth) &&&
      s.getD (i * st.regwidth / 64) 0) >>>
        (64 - i * st.regwidth % 64 - st.regwidth)) % 256 = denseGet s i st.regwidth := by
    rw [mask_extract_eq, denseGet_single_eq s i st.regwidth hw8 hsingle]
    exact mod256_absorb hw8 (Nat.mod_lt _ (Nat.pos_pow_of_pos _ (by norm_num)))
  rw [hcurr]

/-- Branch characterization of `denseSetIfGreater` when the register straddles
two words (the source's `>=` comparison against the register value, and the
two masked-OR writes). -/
lemma denseSetIfGreater_eq_straddle (st : GoSettings) (s : DenseStorage) (i v : ℕ)
    (hw8 : st.regwidth ≤ 8)
    (hstrad : 64 < i * st.regwidth % 64 + st.regwidth)
    (hb : ∀ k, s.getD k 0 < 2 ^ 64) :
    denseSetIfGreater st s i v =
      if denseGet s i st.regwidth ≤ v then
        (s.set (i * st.regwidth / 64)
          ((compl64 (2 ^ (64 - i * st.regwidth % 64) - 1) &&&
            s.getD (i * st.regwidth / 64) 0) |||
            ((v >>> (st.regwidth - (64 - i * st.regwidth % 64))) &&&
              (2 ^ (64 - i * st.regwidth % 64) - 1)))).set (i * st.regwidth / 64 + 1)
          ((compl64 ((2 ^ (st.regwidth - (64 - i * st.regwidth % 64)) - 1) <<<
              (64 - (st.regwidth - (64 - i * st.regwidth % 64)))) &&&
            s.getD (i * st.regwidth / 64 + 1) 0) |||
            ((v &&& (2 ^ (st.regwidth - (64 - i * st.regwidth % 64)) - 1)) <<<
              (64 - (st.regwidth - (64 - i * st.regwidth % 64)))))
      else s := by
  have hpos : i * st.regwidth &&& 63 = i * st.regwidth % 64 :=
    Nat.and_pow_two_sub_one_eq_mod _ 6
  have hidx : (i * st.regwidth) >>> 6 = i * st.regwidth / 64 :=
    Nat.shiftRight_eq_div_pow _ 6
  simp only [denseSetIfGreater]
  rw [hpos, hidx, if_neg (by omega), shiftLeft_one_sub_one, shiftLeft_one_sub_one,
      Nat.and_pow_two_sub_one_eq_mod]
  have hlow : s.getD (i * st.regwidth / 64 + 1) 0 >>>
      (64 - (st.regwidth - (64 - i * st.regwidth % 64)))
      < 2 ^ (st.regwidth - (64 - i * st.regwidth % 64)) := by
    rw [Nat.shiftRight_eq_div_pow]
    rw [Nat.div_lt_iff_lt_mul (Nat.pos_pow_of_pos _ (by norm_num)), ← Nat.pow_add]
    have he : st.regwidth - (64 - i * st.regwidth % 64) +
        (64 - (st.regwidth - (64 - i * st.regwidth % 64))) = 64 := by
      have := @Nat.mod_lt (i * st.regwidth) 64 (by norm_num)
      omega
    rw [he]
    exact hb _
  have hcurr : (((s.getD (i * st.regwidth / 64) 0 % 2 ^ (64 - i * st.regwidth % 64)) <<<
      (st.regwidth - (64 - i * st.regwidth % 64))) |||
      s.getD (i * st.regwidth / 64 + 1) 0 >>>
        (64 - (st.regwidth - (64 - i * st.regwidth % 64)))) % 256
      = denseGet s i st.regwidth := by
    rw [shiftLeft_or_eq_add hlow, Nat.shiftLeft_eq,
        denseGet_straddle_eq s i st.regwidth hw8 hstrad (hb _) (hb _)]
    apply mod256_absorb hw8
    have hupb : s.getD (i * st.regwidth / 64) 0 % 2 ^ (64 - i * st.regwidth % 64)
        < 2 ^ (64 - i * st.regwidth % 64) :=
      Nat.mod_lt _ (Nat.pos_pow_of_pos _ (by norm_num))
    have hups : (64 - i * st.regwidth % 64) + (st.regwidth - (64 - i * st.regwidth % 64))
        = st.regwidth := by
      have := @Nat.mod_lt (i * st.regwidth) 64 (by norm_num)
      omega
    calc s.getD (i * st.regwidth / 64) 0 % 2 ^ (64 - i * st.regwidth % 64) *
          2 ^ (st.regwidth - (64 - i * st.regwidth % 64)) +
          s.getD (i * st.regwidth / 64 + 1) 0 >>>
            (64 - (st.regwidth - (64 - i * st.regwidth % 64)))
        < (s.getD (i * st.regwidth / 64) 0 % 2 ^ (64 - i * st.regwidth % 64) + 1) *
            2 ^ (st.regwidth - (64 - i * st.regwidth % 64)) := by
          rw [Nat.add_mul, one_mul]
          omega
      _ ≤ 2 ^ (64 - i * st.regwidth % 64) * 2 ^ (st.regwidth - (64 - i * st.regwidth % 64)) := by
          apply Nat.mul_le_mul_right
          omega
      _ = 2 ^ st.regwidth := by rw [← Nat.pow_add, hups]
  rw [hcurr]

/-- The full behaviour of one `denseSetIfGreater` call: length and word
bounds are preserved, the target register becomes the max of its old value
and the written value, a write happens only when the value strictly exceeds
the old one (otherwise the storage is returned unchanged, bit for bit), and
every bit outside the target register's window is untouched. -/
lemma denseSetIfGreater_master (st : GoSettings) (s : DenseStorage) (i v : ℕ)
    (hw1 : 1 ≤ st.regwidth) (hw8 : st.regwidth ≤ 8)
    (hlen : s.length = denseWords st) (hb : ∀ x ∈ s, x < 2 ^ 64)
    (hi : i < 2 ^ st.log2m) (hv : v < 2 ^ st.regwidth) :
    (denseSetIfGreater st s i v).length = s.length ∧
    (∀ x ∈ denseSetIfGreater st s i v, x < 2 ^ 64) ∧
    denseGet (denseSetIfGreater st s i v) i st.regwidth
      = max (denseGet s i st.regwidth) v ∧
    (v ≤ denseGet s i st.regwidth → denseSetIfGreater st s i v = s) ∧
    (∀ g, g < i * st.regwidth ∨ i * st.regwidth + st.regwidth ≤ g →
      arrBit (denseSetIfGreater st s i v) g = arrBit s g) := by
  have hbk : ∀ k, s.getD k 0 < 2 ^ 64 := getD_lt64 hb
  have hAub : i * st.regwidth + st.regwidth ≤ 64 * s.length := by
    have h1 : (i + 1) * st.regwidth ≤ (1 <<< st.log2m) * st.regwidth := by
      apply Nat.mul_le_mul_right
      rw [Nat.shiftLeft_eq, one_mul]
      omega
    have h2 := le_mul_denseWords st
    rw [hlen]
    calc i * st.regwidth + st.regwidth = (i + 1) * st.regwidth := by ring
      _ ≤ 64 * denseWords st := le_trans h1 h2
  have hidxlen : i * st.regwidth / 64 < s.length := by omega
  by_cases hsingle : i * st.regwidth % 64 + st.regwidth ≤ 64
  · rw [denseSetIfGreater_eq_single st s i v hw8 hsingle]
    by_cases hcmp : denseGet s i st.regwidth < v
    case neg =>
      rw [if_neg hcmp]
      exact ⟨rfl, hb, (Nat.max_eq_left (by omega)).symm, fun _ => rfl, fun g _ => rfl⟩
    case pos =>
      rw [if_pos hcmp]
      have hsw : (64 - i * st.regwidth % 64 - st.regwidth) + st.regwidth ≤ 64 := by omega
      obtain ⟨hub, hufield, huframe⟩ :=
        @updWord_spec (s.getD (i * st.regwidth / 64) 0) v
          (64 - i * st.regwidth % 64 - st.regwidth) st.regwidth
          (hbk (i * st.regwidth / 64)) hsw
      refine ⟨by simp, ?_, ?_, ?_, ?_⟩
      · intro x hx
        rcases List.mem_or_eq_of_mem_set hx with hx | hx
        · exact hb x hx
        · rw [hx]
          exact hub
      · rw [denseGet_single_eq _ i _ hw8 hsingle]
        have hget : (s.set (i * st.regwidth / 64)
            ((compl64 ((2 ^ st.regwidth - 1) <<< (64 - i * st.regwidth % 64 - st.regwidth)) &&&
              s.getD (i * st.regwidth / 64) 0) |||
              ((v &&& (2 ^ st.regwidth - 1)) <<<
                (64 - i * st.regwidth % 64 - st.regwidth)))).getD (i * st.regwidth / 64) 0
            = (compl64 ((2 ^ st.regwidth - 1) <<< (64 - i * st.regwidth % 64 - st.regwidth)) &&&
              s.getD (i * st.regwidth / 64) 0) |||
              ((v &&& (2 ^ st.regwidth - 1)) <<< (64 - i * st.regwidth % 64 - st.regwidth)) := by
          rw [getD_set, if_pos ⟨rfl, hidxlen⟩]
        rw [hget, hufield, Nat.mod_eq_of_lt hv]
        exact (Nat.max_eq_right (le_of_lt hcmp)).symm
      · intro hle
        exact absurd hcmp (by omega)
      · intro g hg
        unfold arrBit
        rw [getD_set]
        by_cases hsame : i * st.regwidth / 64 = g / 64 ∧ i * st.regwidth / 64 < s.length
        · rw [if_pos hsame]
          obtain ⟨he, -⟩ := hsame
          rw [← he]
          exact huframe _ (by omega)
        · rw [if_neg hsame]
  · have hstrad : 64 < i * st.regwidth % 64 + st.regwidth := by omega
    rw [denseSetIfGreater_eq_straddle st s i v hw8 hstrad hbk]
    have hposlt : i * st.regwidth % 64 < 64 := Nat.mod_lt _ (by norm_num)
    have hidx1len : i * st.regwidth / 64 + 1 < s.length := by omega
    by_cases hcmp : denseGet s i st.regwidth ≤ v
    case neg =>
      rw [if_neg hcmp]
      exact ⟨rfl, hb, (Nat.max_eq_left (by omega)).symm, fun _ => rfl, fun g _ => rfl⟩
    case pos =>
      rw [if_pos hcmp]
      have hvU : v >>> (st.regwidth - (64 - i * st.regwidth % 64))
          < 2 ^ (64 - i * st.regwidth % 64) := by
        rw [Nat.shiftRight_eq_div_pow,
            Nat.div_lt_iff_lt_mul (Nat.pos_pow_of_pos _ (by norm_num)), ← Nat.pow_add]
        have he : 64 - i * st.regwidth % 64 + (st.regwidth - (64 - i * st.regwidth % 64))
            = st.regwidth := by omega
        rw [he]
        exact hv
      obtain ⟨hubU, hufieldU, huframeU⟩ :=
        @updWord_spec (s.getD (i * st.regwidth / 64) 0)
          (v >>> (st.regwidth - (64 - i * st.regwidth % 64)))
          0 (64 - i * st.regwidth % 64) (hbk (i * st.regwidth / 64)) (by omega)
      obtain ⟨hubL, hufieldL, huframeL⟩ :=
        @updWord_spec (s.getD (i * st.regwidth / 64 + 1) 0) v
          (64 - (st.regwidth - (64 - i * st.regwidth % 64)))
          (st.regwidth - (64 - i * st.regwidth % 64))
          (hbk (i * st.regwidth / 64 + 1)) (by omega)
      rw [Nat.shiftLeft_zero, Nat.shiftLeft_zero] at hubU hufieldU huframeU
      rw [Nat.shiftRight_zero] at hufieldU
      have hfieldU : ((compl64 (2 ^ (64 - i * st.regwidth % 64) - 1) &&&
          s.getD (i * st.regwidth / 64) 0) |||
          (v >>> (st.regwidth - (64 - i * st.regwidth % 64)) &&&
            (2 ^ (64 - i * st.regwidth % 64) - 1))) % 2 ^ (64 - i * st.regwidth % 64)
          = v >>> (st.regwidth - (64 - i * st.regwidth % 64)) := by
        rw [hufieldU, Nat.mod_eq_of_lt hvU]
      have hfieldL : ((compl64 ((2 ^ (st.regwidth - (64 - i * st.regwidth % 64)) - 1) <<<
          (64 - (st.regwidth - (64 - i * st.regwidth % 64)))) &&&
          s.getD (i * st.regwidth / 64 + 1) 0) |||
          ((v &&& (2 ^ (st.regwidth - (64 - i * st.regwidth % 64)) - 1)) <<<
            (64 - (st.regwidth - (64 - i * st.regwidth % 64))))) >>>
          (64 - (st.regwidth - (64 - i * st.regwidth % 64)))
          = v % 2 ^ (st.regwidth - (64 - i * st.regwidth % 64)) := by
        have habs : ((compl64 ((2 ^ (st.regwidth - (64 - i * st.regwidth % 64)) - 1) <<<
            (64 - (st.regwidth - (64 - i * st.regwidth % 64)))) &&&
            s.getD (i * st.regwidth / 64 + 1) 0) |||
            ((v &&& (2 ^ (st.regwidth - (64 - i * st.regwidth % 64)) - 1)) <<<
              (64 - (st.regwidth - (64 - i * st.regwidth % 64))))) >>>
            (64 - (st.regwidth - (64 - i * st.regwidth % 64)))
            < 2 ^ (st.regwidth - (64 - i * st.regwidth % 64)) := by
          rw [Nat.shiftRight_eq_div_pow,
              Nat.div_lt_iff_lt_mul (Nat.pos_pow_of_pos _ (by norm_num)), ← Nat.pow_add]
          have he : st.regwidth - (64 - i * st.regwidth % 64) +
              (64 - (st.regwidth - (64 - i * st.regwidth % 64))) = 64 := by omega
          rw [he]
          exact hubL
        rw [← Nat.mod_eq_of_lt habs]
        exact hufieldL
      have hgetU : (((s.set (i * st.regwidth / 64)
          ((compl64 (2 ^ (64 - i * st.regwidth % 64) - 1) &&&
            s.getD (i * st.regwidth / 64) 0) |||
            (v >>> (st.regwidth - (64 - i * st.regwidth % 64)) &&&
              (2 ^ (64 - i * st.regwidth % 64) - 1)))).set (i * st.regwidth / 64 + 1)
          ((compl64 ((2 ^ (st.regwidth - (64 - i * st.regwidth % 64)) - 1) <<<
              (64 - (st.regwidth - (64 - i * st.regwidth % 64)))) &&&
            s.getD (i * st.regwidth / 64 + 1) 0) |||
            ((v &&& (2 ^ (st.regwidth - (64 - i * st.regwidth % 64)) - 1)) <<<
              (64 - (st.regwidth - (64 - i * st.regwidth % 64))))))).getD
          (i * st.regwidth / 64) 0
          = (compl64 (2 ^ (64 - i * st.regwidth % 64) - 1) &&&
            s.getD (i * st.regwidth / 64) 0) |||
            (v >>> (st.regwidth - (64 - i * st.regwidth % 64)) &&&
              (2 ^ (64 - i * st.regwidth % 64) - 1)) := by
        rw [getD_set, if_neg (by omega), getD_set, if_pos ⟨rfl, hidxlen⟩]
      have hgetL : (((s.set (i * st.regwidth / 64)
          ((compl64 (2 ^ (64 - i * st.regwidth % 64) - 1) &&&
            s.getD (i * st.regwidth / 64) 0) |||
            (v >>> (st.regwidth - (64 - i * st.regwidth % 64)) &&&
              (2 ^ (64 - i * st.regwidth % 64) - 1)))).set (i * st.regwidth / 64 + 1)
          ((compl64 ((2 ^ (st.regwidth - (64 - i * st.regwidth % 64)) - 1) <<<
              (64 - (st.regwidth - (64 - i * st.regwidth % 64)))) &&&
            s.getD (i * st.regwidth / 64 + 1) 0) |||
            ((v &&& (2 ^ (st.regwidth - (64 - i * st.regwidth % 64)) - 1)) <<<
              (64 - (st.regwidth - (64 - i * st.regwidth % 64))))))).getD
          (i * st.regwidth / 64 + 1) 0
          = (compl64 ((2 ^ (st.regwidth - (64 - i * st.regwidth % 64)) - 1) <<<
              (64 - (st.regwidth - (64 - i * st.regwidth % 64)))) &&&
            s.getD (i * st.regwidth / 64 + 1) 0) |||
            ((v &&& (2 ^ (st.regwidth - (64 - i * st.regwidth % 64)) - 1)) <<<
              (64 - (st.regwidth - (64 - i * st.regwidth % 64)))) := by
        rw [getD_set, if_pos ⟨rfl, by simp [hidx1len]⟩]
      refine ⟨by simp, ?_, ?_, ?_, ?_⟩
      · intro x hx
        rcases List.mem_or_eq_of_mem_set hx with hx | hx
        · rcases List.mem_or_eq_of_mem_set hx with hx | hx
          · exact hb x hx
          · rw [hx]
            exact hubU
        · rw [hx]
          exact hubL
      · have hbk2 : ∀ k, (((s.set (i * st.regwidth / 64)
            ((compl64 (2 ^ (64 - i * st.regwidth % 64) - 1) &&&
              s.getD (i * st.regwidth / 64) 0) |||
              (v >>> (st.regwidth - (64 - i * st.regwidth % 64)) &&&
                (2 ^ (64 - i * st.regwidth % 64) - 1)))).set (i * st.regwidth / 64 + 1)
            ((compl64 ((2 ^ (st.regwidth - (64 - i * st.regwidth % 64)) - 1) <<<
                (64 - (st.regwidth - (64 - i * st.regwidth % 64)))) &&&
              s.getD (i * st.regwidth / 64 + 1) 0) |||
              ((v &&& (2 ^ (st.regwidth - (64 - i * st.regwidth % 64)) - 1)) <<<
                (64 - (st.regwidth - (64 - i * st.regwidth % 64))))))).getD k 0 < 2 ^ 64 := by
          intro k
          rw [getD_set]
          split
          · exact hubL
          · rw [getD_set]
            split
            · exact hubU
            · exact hbk k
        rw [denseGet_straddle_eq _ i _ hw8 hstrad (hbk2 _) (hbk2 _), hgetU, hgetL, hfieldU,
          hfieldL]
        rw [Nat.shiftRight_eq_div_pow]
        have hdm : v / 2 ^ (st.regwidth - (64 - i * st.regwidth % 64)) *
            2 ^ (st.regwidth - (64 - i * st.regwidth % 64)) +
            v % 2 ^ (st.regwidth - (64 - i * st.regwidth % 64)) = v := by
          rw [Nat.mul_comm]
          exact Nat.div_add_mod v _
        rw [hdm]
        exact (Nat.max_eq_right hcmp).symm
      · intro hle
        have heq : v = denseGet s i st.regwidth := by omega
        have hgeq := denseGet_straddle_eq s i st.regwidth hw8 hstrad
          (hbk _) (hbk _)
        have hbnd : s.getD (i * st.regwidth / 64 + 1) 0 >>>
            (64 - (st.regwidth - (64 - i * st.regwidth % 64)))
            < 2 ^ (st.regwidth - (64 - i * st.regwidth % 64)) := by
          rw [Nat.shiftRight_eq_div_pow,
              Nat.div_lt_iff_lt_mul (Nat.pos_pow_of_pos _ (by norm_num)), ← Nat.pow_add]
          have he : st.regwidth - (64 - i * st.regwidth % 64) +
              (64 - (st.regwidth - (64 - i * st.regwidth % 64))) = 64 := by omega
          rw [he]
          exact hbk _
        have ha : v >>> (st.regwidth - (64 - i * st.regwidth % 64))
            = s.getD (i * st.regwidth / 64) 0 % 2 ^ (64 - i * st.regwidth % 64) := by
          rw [Nat.shiftRight_eq_div_pow, heq, hgeq, Nat.mul_comm, Nat.mul_add_div
            (Nat.pos_pow_of_pos _ (by norm_num)),
            Nat.div_eq_of_lt hbnd, Nat.add_zero]
        have hb2 : v % 2 ^ (st.regwidth - (64 - i * st.regwidth % 64))
            = s.getD (i * st.regwidth / 64 + 1) 0 >>>
              (64 - (st.regwidth - (64 - i * st.regwidth % 64))) := by
          rw [heq, hgeq, Nat.mul_add_mod']
          exact Nat.mod_eq_of_lt hbnd
        have hUeq : (compl64 (2 ^ (64 - i * st.regwidth % 64) - 1) &&&
            s.getD (i * st.regwidth / 64) 0) |||
            (v >>> (st.regwidth - (64 - i * st.regwidth % 64)) &&&
              (2 ^ (64 - i * st.regwidth % 64) - 1))
            = s.getD (i * st.regwidth / 64) 0 := by
          apply Nat.eq_of_testBit_eq
          intro t
          by_cases ht : t < 64 - i * st.regwidth % 64
          · have h1 := hfieldU
            have h2 : ((compl64 (2 ^ (64 - i * st.regwidth % 64) - 1) &&&
                s.getD (i * st.regwidth / 64) 0) |||
                (v >>> (st.regwidth - (64 - i * st.regwidth % 64)) &&&
                  (2 ^ (64 - i * st.regwidth % 64) - 1))).testBit t
                = (v >>> (st.regwidth - (64 - i * st.regwidth % 64))).testBit t := by
              rw [← h1, Nat.testBit_mod_two_pow]
              simp [ht]
            rw [h2, ha, Nat.testBit_mod_two_pow]
            simp [ht]
          · exact huframeU t (by omega)
        have hLeq : (compl64 ((2 ^ (st.regwidth - (64 - i * st.regwidth % 64)) - 1) <<<
            (64 - (st.regwidth - (64 - i * st.regwidth % 64)))) &&&
            s.getD (i * st.regwidth / 64 + 1) 0) |||
            ((v &&& (2 ^ (st.regwidth - (64 - i * st.regwidth % 64)) - 1)) <<<
              (64 - (st.regwidth - (64 - i * st.regwidth % 64))))
            = s.getD (i * st.regwidth / 64 + 1) 0 := by
          have hsr : ((compl64 ((2 ^ (st.regwidth - (64 - i * st.regwidth % 64)) - 1) <<<
              (64 - (st.regwidth - (64 - i * st.regwidth % 64)))) &&&
              s.getD (i * st.regwidth / 64 + 1) 0) |||
              ((v &&& (2 ^ (st.regwidth - (64 - i * st.regwidth % 64)) - 1)) <<<
                (64 - (st.regwidth - (64 - i * st.regwidth % 64))))) >>>
              (64 - (st.regwidth - (64 - i * st.regwidth % 64)))
              = s.getD (i * st.regwidth / 64 + 1) 0 >>>
                (64 - (st.regwidth - (64 - i * st.regwidth % 64))) := by
            rw [hfieldL, hb2]
          apply Nat.eq_of_testBit_eq
          intro t
          by_cases ht : t < 64 - (st.regwidth - (64 - i * st.regwidth % 64))
          · exact huframeL t (by omega)
          · by_cases ht64 : t < 64
            · have ht' : t = (64 - (st.regwidth - (64 - i * st.regwidth % 64))) +
                  (t - (64 - (st.regwidth - (64 - i * st.regwidth % 64)))) := by omega
              rw [ht', ← Nat.testBit_shiftRight, ← Nat.testBit_shiftRight, hsr]
            · rw [Nat.testBit_lt_two_pow, Nat.testBit_lt_two_pow]
              · exact lt_of_lt_of_le (hbk _)
                  (Nat.pow_le_pow_right (by norm_num) (by omega))
              · exact lt_of_lt_of_le hubL
                  (Nat.pow_le_pow_right (by norm_num) (by omega))
        rw [hUeq, set_getD_self, hLeq, set_getD_self]
      · intro g hg
        unfold arrBit
        rw [getD_set]
        simp only [List.length_set]
        by_cases hsU : i * st.regwidth / 64 + 1 = g / 64 ∧ i * st.regwidth / 64 + 1 < s.length
        · rw [if_pos hsU]
          obtain ⟨he, -⟩ := hsU
          rw [← he]
          exact huframeL _ (by omega)
        · rw [if_neg hsU]
          rw [getD_set]
          by_cases hsI : i * st.regwidth / 64 = g / 64 ∧ i * st.regwidth / 64 < s.length
          · rw [if_pos hsI]
            obtain ⟨he, -⟩ := hsI
            rw [← he]
            exact huframeU _ (by omega)
          · rw [if_neg hsI]

/-- Registers other than the target are left unchanged by
`denseSetIfGreater`: each bit of another register's window is outside the
written window, so the congruence lemma for `denseGet` applies. -/
lemma denseSetIfGreater_get_other (st : GoSettings) (s : DenseStorage) (i j v : ℕ)
    (hw1 : 1 ≤ st.regwidth) (hw8 : st.regwidth ≤ 8)
    (hlen : s.length = denseWords st) (hb : ∀ x ∈ s, x < 2 ^ 64)
    (hi : i < 2 ^ st.log2m) (hv : v < 2 ^ st.regwidth)
    (hne : j ≠ i) :
    denseGet (denseSetIfGreater st s i v) j st.regwidth = denseGet s j st.regwidth := by
  obtain ⟨-, hb', -, -, hframe⟩ :=
    denseSetIfGreater_master st s i v hw1 hw8 hlen hb hi hv
  apply denseGet_congr j st.regwidth hw8 (getD_lt64 hb') (getD_lt64 hb)
  intro g hg1 hg2
  apply hframe
  rcases Nat.lt_or_ge j i with hji | hji
  · left
    have : (j + 1) * st.regwidth ≤ i * st.regwidth :=
      Nat.mul_le_mul_right _ (by omega)
    have h2 : j * st.regwidth + st.regwidth ≤ i * st.regwidth := by
      calc j * st.regwidth + st.regwidth = (j + 1) * st.regwidth := by ring
        _ ≤ i * st.regwidth := this
    omega
  · right
    have hij : i < j := by omega
    have : (i + 1) * st.regwidth ≤ j * st.regwidth :=
      Nat.mul_le_mul_right _ (by omega)
    have h2 : i * st.regwidth + st.regwidth ≤ j * st.regwidth := by
      calc i * st.regwidth + st.regwidth = (i + 1) * st.regwidth := by ring
        _ ≤ j * st.regwidth := this
    omega

/-- C4: for every dense storage of the right length with in-range words,
every register index `i < m` and every value `v ≤ max_reg_value`,
`setIfGreater` leaves register `i` holding `max(old value, v)`, leaves every
other register unchanged, and when `v` does not exceed the old value the
storage is returned unchanged — including when register `i` straddles two
consecutive 64-bit words. -/
theorem denseSetIfGreater_spec (st : GoSettings) (s : DenseStorage) (i v : ℕ)
    (hw1 : 1 ≤ st.regwidth) (hw8 : st.regwidth ≤ 8)
    (hlen : s.length = denseWords st) (hb : ∀ x ∈ s, x < 2 ^ 64)
    (hi : i < 2 ^ st.log2m) (hv : v ≤ maxRegValue st) :
    denseGet (denseSetIfGreater st s i v) i st.regwidth
      = max (denseGet s i st.regwidth) v ∧
    (∀ j, j ≠ i →
      denseGet (denseSetIfGreater st s i v) j st.regwidth
        = denseGet s j st.regwidth) ∧
    (v ≤ denseGet s i st.regwidth → denseSetIfGreater st s i v = s) := by
  have hv' : v < 2 ^ st.regwidth := by
    have : maxRegValue st = 2 ^ st.regwidth - 1 := by
      unfold maxRegValue
      rw [Nat.shiftLeft_eq, one_mul]
    have hp : 0 < 2 ^ st.regwidth := Nat.pos_pow_of_pos _ (by norm_num)
    omega
  obtain ⟨-, -, hmax, hnoop, -⟩ :=
    denseSetIfGreater_master st s i v hw1 hw8 hlen hb hi hv'
  exact ⟨hmax,
    fun j hne => denseSetIfGreater_get_other st s i j v hw1 hw8 hlen hb hi hv' hne,
    hnoop⟩

/-- Witness for C4 at concrete inputs: log2m = 4, regwidth = 5 (register 12
occupies bits 60..64 and straddles words 0 and 1), storage fresh, write 7. -/
theorem denseSetIfGreater_spec_witness :
    (1 ≤ (5:ℕ) ∧ (5:ℕ) ≤ 8 ∧
      (newDense ⟨4, 5, false, false, 0, 0⟩).length = denseWords ⟨4, 5, false, false, 0, 0⟩ ∧
      (∀ x ∈ newDense ⟨4, 5, false, false, 0, 0⟩, x < 2 ^ 64) ∧
      (12:ℕ) < 2 ^ (4:ℕ) ∧ (7:ℕ) ≤ maxRegValue ⟨4, 5, false, false, 0, 0⟩) ∧
    (denseGet (denseSetIfGreater ⟨4, 5, false, false, 0, 0⟩
        (newDense ⟨4, 5, false, false, 0, 0⟩) 12 7) 12 5
      = max (denseGet (newDense ⟨4, 5, false, false, 0, 0⟩) 12 5) 7 ∧
    (∀ j, j ≠ 12 →
      denseGet (denseSetIfGreater ⟨4, 5, false, false, 0, 0⟩
          (newDense ⟨4, 5, false, false, 0, 0⟩) 12 7) j 5
        = denseGet (newDense ⟨4, 5, false, false, 0, 0⟩) j 5) ∧
    (7 ≤ denseGet (newDense ⟨4, 5, false, false, 0, 0⟩) 12 5 →
      denseSetIfGreater ⟨4, 5, false, false, 0, 0⟩
        (newDense ⟨4, 5, false, false, 0, 0⟩) 12 7
        = newDense ⟨4, 5, false, false, 0, 0⟩)) :=
  ⟨⟨by norm_num, by norm_num, by decide, by decide, by norm_num, by decide⟩,
    denseSetIfGreater_spec ⟨4, 5, false, false, 0, 0⟩
      (newDense ⟨4, 5, false, false, 0, 0⟩) 12 7
      (by norm_num) (by norm_num) (by decide) (by decide) (by norm_num) (by decide)⟩

lemma tz64Go_le_fuel (fuel x : ℕ) : tz64Go fuel x ≤ fuel := by
  induction fuel generalizing x with
  | zero => simp [tz64Go]
  | succ n ih =>
    unfold tz64Go
    split
    · omega
    · have := ih (x / 2)
      omega

lemma tz64Go_le_of_testBit (fuel : ℕ) : ∀ x k, k < fuel → x.testBit k = true →
    tz64Go fuel x ≤ k := by
  induction fuel with
  | zero => omega
  | succ n ih =>
    intro x k hk hbit
    unfold tz64Go
    split
    · omega
    case isFalse hodd =>
      rcases k with _ | k'
      · rw [Nat.testBit_zero] at hbit
        exact absurd (of_decide_eq_true hbit) hodd
      · have := ih (x / 2) k' (by omega) (by rw [← Nat.testBit_succ]; exact hbit)
        omega

/-- When the pw-max mask has bit `K` set, the position-of-first-one value is
at most `K + 1`. -/
lemma pw_le_of_maskBit (lm W K v : ℕ) (hK : K < 64)
    (hbit : (pwMaxMask W).testBit K = true) :
    1 + tz64 ((v >>> lm) ||| pwMaxMask W) ≤ K + 1 := by
  have hb : ((v >>> lm) ||| pwMaxMask W).testBit K = true := by
    rw [Nat.testBit_or, hbit, Bool.or_true]
  have := tz64Go_le_of_testBit 64 _ K hK hb
  simp only [tz64]
  omega

lemma pw_le_65 (x : ℕ) : 1 + tz64 x ≤ 65 := by
  have := tz64Go_le_fuel 64 x
  simp only [tz64]
  omega

/-- For every regwidth in `[1, 8]` and every raw value, the pw saturation mask
keeps the computed register value within `maxRegisterValue`. -/
lemma pwValue_le_maxRegValue (st : GoSettings) (hw1 : 1 ≤ st.regwidth)
    (hw8 : st.regwidth ≤ 8) (v : ℕ) : pwValue st v ≤ maxRegValue st := by
  obtain ⟨lm, w, ea, se, et, sth⟩ := st
  simp only [pwValue, maxRegValue] at *
  interval_cases w
  · exact le_trans (pw_le_of_maskBit lm 1 0 v (by norm_num) (by decide)) (by decide)
  · exact le_trans (pw_le_of_maskBit lm 2 2 v (by norm_num) (by decide)) (by decide)
  · exact le_trans (pw_le_of_maskBit lm 3 6 v (by norm_num) (by decide)) (by decide)
  · exact le_trans (pw_le_of_maskBit lm 4 14 v (by norm_num) (by decide)) (by decide)
  · exact le_trans (pw_le_of_maskBit lm 5 30 v (by norm_num) (by decide)) (by decide)
  · exact le_trans (pw_le_of_maskBit lm 6 62 v (by norm_num) (by decide)) (by decide)
  · exact le_trans (pw_le_65 _) (by decide)
  · exact le_trans (pw_le_65 _) (by decide)

lemma pwValue_lt_two_pow (st : GoSettings) (hw1 : 1 ≤ st.regwidth)
    (hw8 : st.regwidth ≤ 8) (v : ℕ) : pwValue st v < 2 ^ st.regwidth := by
  have h := pwValue_le_maxRegValue st hw1 hw8 v
  have he : maxRegValue st = 2 ^ st.regwidth - 1 := by
    simp [maxRegValue, Nat.shiftLeft_eq]
  have hp : 0 < 2 ^ st.regwidth := Nat.pos_pow_of_pos _ (by norm_num)
  omega

lemma pwValue_pos (st : GoSettings) (v : ℕ) : 1 ≤ pwValue st v := by
  simp only [pwValue]
  omega

lemma regIndex_lt (st : GoSettings) (v : ℕ) : regIndex st v < 2 ^ st.log2m := by
  unfold regIndex mBitsMask
  rw [Nat.shiftLeft_eq, one_mul, Nat.and_pow_two_sub_one_eq_mod]
  exact Nat.mod_lt _ (Nat.pos_pow_of_pos _ (by norm_num))

lemma sparseLookup_assign_self (s : SparseStorage) (k v : ℕ) :
    sparseLookup (sparseAssign s k v) k = some v := by
  induction s with
  | nil => simp [sparseAssign, sparseLookup]
  | cons hd t ih =>
    obtain ⟨k1, v1⟩ := hd
    unfold sparseAssign
    split
    · simp [sparseLookup]
    · split
      · simp [sparseLookup]
      case isFalse h1 h2 =>
        unfold sparseLookup
        rw [if_neg (by omega)]
        exact ih

lemma sparseLookup_assign_other (s : SparseStorage) (k v j : ℕ) (hne : j ≠ k) :
    sparseLookup (sparseAssign s k v) j = sparseLookup s j := by
  induction s with
  | nil =>
    unfold sparseAssign sparseLookup
    rw [if_neg (by omega)]
    rfl
  | cons hd t ih =>
    obtain ⟨k1, v1⟩ := hd
    unfold sparseAssign
    split
    · unfold sparseLookup
      rw [if_neg (by omega)]
      rfl
    · split
      case isTrue h1 h2 =>
        unfold sparseLookup
        rw [if_neg (by omega), if_neg (by omega)]
      · unfold sparseLookup
        split
        · rfl
        · exact ih

lemma sparseLookup_mem (s : SparseStorage) (k v : ℕ)
    (h : sparseLookup s k = some v) : (k, v) ∈ s := by
  induction s with
  | nil => simp [sparseLookup] at h
  | cons hd t ih =>
    obtain ⟨k1, v1⟩ := hd
    unfold sparseLookup at h
    split at h
    case isTrue he =>
      obtain rfl := Option.some.injEq .. ▸ h
      subst he
      exact List.mem_cons_self _ _
    · exact List.mem_cons_of_mem _ (ih h)

lemma mem_sparseAssign (s : SparseStorage) (k v : ℕ) :
    ∀ kv ∈ sparseAssign s k v, kv ∈ s ∨ kv = (k, v) := by
  induction s with
  | nil =>
    intro kv hkv
    simp [sparseAssign] at hkv
    exact Or.inr hkv
  | cons hd t ih =>
    obtain ⟨k1, v1⟩ := hd
    intro kv hkv
    unfold sparseAssign at hkv
    split at hkv
    · rcases List.mem_cons.mp hkv with h | h
      · exact Or.inr h
      · exact Or.inl h
    · split at hkv
      · rcases List.mem_cons.mp hkv with h | h
        · exact Or.inr h
        · exact Or.inl (List.mem_cons_of_mem _ h)
      · rcases List.mem_cons.mp hkv with h | h
        · exact Or.inl (h ▸ List.mem_cons_self _ _)
        · rcases ih kv h with h' | h'
          · exact Or.inl (List.mem_cons_of_mem _ h')
          · exact Or.inr h'

lemma mem_sparseAssign_self (s : SparseStorage) (k v : ℕ) :
    (k, v) ∈ sparseAssign s k v :=
  sparseLookup_mem _ _ _ (sparseLookup_assign_self s k v)

/-- A Go-map write under `setIfGreater`'s guard never decreases any read. -/
lemma sparseRead_assign_ge (s : SparseStorage) (k w j : ℕ)
    (hge : sparseRead s k ≤ w) :
    sparseRead s j ≤ sparseRead (sparseAssign s k w) j := by
  by_cases hj : j = k
  · subst hj
    unfold sparseRead
    rw [sparseLookup_assign_self]
    exact hge
  · unfold sparseRead
    rw [sparseLookup_assign_other _ _ _ _ hj]

lemma newDense_length (st : GoSettings) : (newDense st).length = denseWords st := by
  simp [newDense]

lemma newDense_bounds (st : GoSettings) : ∀ x ∈ newDense st, x < 2 ^ 64 := by
  intro x hx
  simp [newDense, List.eq_of_mem_replicate hx]

/-- Folding `setIfGreater` over any entry list preserves the dense shape
invariants, provided every entry is in range. -/
lemma foldl_dsig_wf (st : GoSettings) (hw1 : 1 ≤ st.regwidth) (hw8 : st.regwidth ≤ 8)
    (l : List (ℕ × ℕ)) (d : DenseStorage)
    (hd : d.length = denseWords st) (hb : ∀ x ∈ d, x < 2 ^ 64)
    (hent : ∀ kv ∈ l, kv.1 < 2 ^ st.log2m ∧ kv.2 < 2 ^ st.regwidth) :
    (l.foldl (fun a kv => denseSetIfGreater st a kv.1 kv.2) d).length = denseWords st ∧
    ∀ x ∈ l.foldl (fun a kv => denseSetIfGreater st a kv.1 kv.2) d, x < 2 ^ 64 := by
  induction l generalizing d with
  | nil => exact ⟨hd, hb⟩
  | cons hd1 t ih =>
    obtain ⟨k1, v1⟩ := hd1
    have h1 := hent (k1, v1) (by simp)
    obtain ⟨hlen', hb', -, -, -⟩ :=
      denseSetIfGreater_master st d k1 v1 hw1 hw8 hd hb h1.1 h1.2
    exact ih _ (by rw [hlen', hd]) hb' (fun kv hkv => hent kv (by simp [hkv]))

/-- Folding `setIfGreater` over an entry list only grows registers: a value
already reached, or delivered by some entry of the list, survives. -/
lemma foldl_dsig_ge (st : GoSettings) (hw1 : 1 ≤ st.regwidth) (hw8 : st.regwidth ≤ 8)
    (l : List (ℕ × ℕ)) (d : DenseStorage)
    (hd : d.length = denseWords st) (hb : ∀ x ∈ d, x < 2 ^ 64)
    (hent : ∀ kv ∈ l, kv.1 < 2 ^ st.log2m ∧ kv.2 < 2 ^ st.regwidth)
    (k pv : ℕ)
    (hstart : pv ≤ denseGet d k st.regwidth ∨ ∃ w, (k, w) ∈ l ∧ pv ≤ w) :
    pv ≤ denseGet (l.foldl (fun a kv => denseSetIfGreater st a kv.1 kv.2) d)
      k st.regwidth := by
  induction l generalizing d with
  | nil =>
    rcases hstart with h | ⟨w, hm, -⟩
    · exact h
    · simp at hm
  | cons hd1 t ih =>
    obtain ⟨k1, v1⟩ := hd1
    have h1 := hent (k1, v1) (by simp)
    obtain ⟨hlen', hb', hmax, -, -⟩ :=
      denseSetIfGreater_master st d k1 v1 hw1 hw8 hd hb h1.1 h1.2
    apply ih _ (by rw [hlen', hd]) hb' (fun kv hkv => hent kv (by simp [hkv]))
    rcases hstart with h | ⟨w, hm, hpv⟩
    · left
      by_cases hk : k = k1
      · subst hk
        rw [hmax]
        exact le_trans h (le_max_left _ _)
      · rw [denseSetIfGreater_get_other st d k1 k v1 hw1 hw8 hd hb h1.1 h1.2 hk]
        exact h
    · rcases List.mem_cons.mp hm with he | hm'
      · left
        cases he
        rw [hmax]
        exact le_trans hpv (le_max_right _ _)
      · exact Or.inr ⟨w, hm', hpv⟩

/-- The full behaviour of one pass through `AddRaw`'s register branch: the
settings survive, the storage stays a register type satisfying its
invariants, the added value is now covered, previously covered values stay
covered, and on an already-covered value the pass is the identity. -/
lemma addRawReg_step (st : GoSettings) (hw1 : 1 ≤ st.regwidth) (hw8 : st.regwidth ≤ 8)
    (stor : Storage) (hreg : isReg stor) (hwf : regWF st stor) (v : ℕ) :
    (addRawReg ⟨st, stor⟩ v).st = st ∧
    isReg (addRawReg ⟨st, stor⟩ v).storage ∧
    regWF st (addRawReg ⟨st, stor⟩ v).storage ∧
    regCovers st (addRawReg ⟨st, stor⟩ v).storage v ∧
    (∀ u, regCovers st stor u → regCovers st (addRawReg ⟨st, stor⟩ v).storage u) ∧
    (regCovers st stor v → addRawReg ⟨st, stor⟩ v = ⟨st, stor⟩) := by
  cases stor with
  | empty => exact absurd hreg (by simp [isReg])
  | ex s => exact absurd hreg (by simp [isReg])
  | sp s =>
    obtain ⟨hlen, hent⟩ := hwf
    simp only [addRawReg]
    by_cases hz : v >>> st.log2m = 0
    · rw [if_pos hz]
      exact ⟨rfl, trivial, ⟨hlen, hent⟩, Or.inl hz, fun u hu => hu, fun _ => rfl⟩
    · rw [if_neg hz]
      simp only [sparseSetIfGreater]
      by_cases hgt : pwValue st v > sparseRead s (regIndex st v)
      · rw [if_pos hgt]
        have hent' : ∀ kv ∈ sparseAssign s (regIndex st v) (pwValue st v),
            kv.1 < 2 ^ st.log2m ∧ kv.2 < 2 ^ st.regwidth := by
          intro kv hkv
          rcases mem_sparseAssign _ _ _ kv hkv with h | h
          · exact hent kv h
          · rw [h]
            exact ⟨regIndex_lt st v, pwValue_lt_two_pow st hw1 hw8 v⟩
        by_cases hpro :
            (sparseAssign s (regIndex st v) (pwValue st v)).length > st.sparseThreshold
        · rw [if_pos hpro]
          obtain ⟨hdl, hdb⟩ := foldl_dsig_wf st hw1 hw8 _ _
            (newDense_length st) (newDense_bounds st) hent'
          refine ⟨rfl, trivial, ⟨hdl, hdb⟩, ?_, ?_, ?_⟩
          · right
            exact foldl_dsig_ge st hw1 hw8 _ _ (newDense_length st) (newDense_bounds st)
              hent' _ _ (Or.inr ⟨pwValue st v, mem_sparseAssign_self _ _ _, le_refl _⟩)
          · intro u hu
            rcases hu with hu | hu
            · exact Or.inl hu
            · right
              have hru : pwValue st u ≤
                  sparseRead (sparseAssign s (regIndex st v) (pwValue st v))
                    (regIndex st u) :=
                le_trans hu (sparseRead_assign_ge s _ _ _ (le_of_lt hgt))
              have hpos : 1 ≤ sparseRead (sparseAssign s (regIndex st v) (pwValue st v))
                  (regIndex st u) := le_trans (pwValue_pos st u) hru
              rcases hlk : sparseLookup (sparseAssign s (regIndex st v) (pwValue st v))
                  (regIndex st u) with - | val
              · rw [sparseRead, hlk] at hpos
                simp at hpos
              · have hval : sparseRead (sparseAssign s (regIndex st v) (pwValue st v))
                    (regIndex st u) = val := by rw [sparseRead, hlk]; rfl
                exact foldl_dsig_ge st hw1 hw8 _ _ (newDense_length st)
                  (newDense_bounds st) hent' _ _
                  (Or.inr ⟨val, sparseLookup_mem _ _ _ hlk, hval ▸ hru⟩)
          · intro hcov
            rcases hcov with hcov | hcov
            · exact absurd hcov hz
            · omega
        · rw [if_neg hpro]
          refine ⟨rfl, trivial, ⟨by omega, hent'⟩, ?_, ?_, ?_⟩
          · right
            rw [sparseRead, sparseLookup_assign_self]
            rfl
          · intro u hu
            rcases hu with hu | hu
            · exact Or.inl hu
            · exact Or.inr (le_trans hu (sparseRead_assign_ge s _ _ _ (le_of_lt hgt)))
          · intro hcov
            rcases hcov with hcov | hcov
            · exact absurd hcov hz
            · omega
      · rw [if_neg hgt, if_neg (by omega)]
        exact ⟨rfl, trivial, ⟨hlen, hent⟩, Or.inr (by omega), fun u hu => hu, fun _ => rfl⟩
  | ds d =>
    obtain ⟨hlen, hb⟩ := hwf
    simp only [addRawReg]
    by_cases hz : v >>> st.log2m = 0
    · rw [if_pos hz]
      exact ⟨rfl, trivial, ⟨hlen, hb⟩, Or.inl hz, fun u hu => hu, fun _ => rfl⟩
    · rw [if_neg hz]
      obtain ⟨hlen', hb', hmax, hnoop, -⟩ :=
        denseSetIfGreater_master st d (regIndex st v) (pwValue st v) hw1 hw8 hlen hb
          (regIndex_lt st v) (pwValue_lt_two_pow st hw1 hw8 v)
      refine ⟨rfl, trivial, ⟨by rw [hlen', hlen], hb'⟩, ?_, ?_, ?_⟩
      · right
        rw [hmax]
        exact le_max_right _ _
      · intro u hu
        rcases hu with hu | hu
        · exact Or.inl hu
        · right
          by_cases hj : regIndex st u = regIndex st v
          · rw [hj] at hu ⊢
            rw [hmax]
            exact le_trans hu (le_max_left _ _)
          · rw [denseSetIfGreater_get_other st d (regIndex st v) (regIndex st u)
              (pwValue st v) hw1 hw8 hlen hb (regIndex_lt st v)
              (pwValue_lt_two_pow st hw1 hw8 v) hj]
            exact hu
      · intro hcov
        rcases hcov with hcov | hcov
        · exact absurd hcov hz
        · rw [hnoop hcov]

/-- The `upgrade` replay fold keeps the settings, the register shape and the
invariants, and never loses coverage of a value. -/
lemma replay_preserves (st : GoSettings) (hw1 : 1 ≤ st.regwidth)
    (hw8 : st.regwidth ≤ 8) (l : List ℕ) :
    ∀ h : Hll, h.st = st → isReg h.storage → regWF st h.storage →
    (l.foldl (fun acc u => if u = 0 then acc else addRawReg acc u) h).st = st ∧
    isReg (l.foldl (fun acc u => if u = 0 then acc else addRawReg acc u) h).storage ∧
    regWF st (l.foldl (fun acc u => if u = 0 then acc else addRawReg acc u) h).storage ∧
    ∀ u, regCovers st h.storage u →
      regCovers st
        (l.foldl (fun acc u => if u = 0 then acc else addRawReg acc u) h).storage u := by
  induction l with
  | nil => exact fun h hst hreg hwf => ⟨hst, hreg, hwf, fun u hu => hu⟩
  | cons a t ih =>
    intro h hst hreg hwf
    obtain ⟨st0, stor⟩ := h
    have hst' : st0 = st := hst
    subst hst'
    simp only [List.foldl_cons]
    by_cases ha : a = 0
    · rw [if_pos ha]
      exact ih ⟨st0, stor⟩ rfl hreg hwf
    · rw [if_neg ha]
      obtain ⟨hst2, hreg', hwf', -, hmono, -⟩ :=
        addRawReg_step st0 hw1 hw8 stor hreg hwf a
      obtain ⟨ih1, ih2, ih3, ih4⟩ := ih _ hst2 hreg' hwf'
      exact ⟨ih1, ih2, ih3, fun u hu => ih4 u (hmono u hu)⟩

/-- After the `upgrade` replay, every nonzero value of the replayed list is
covered. -/
lemma replay_covers_mem (st : GoSettings) (hw1 : 1 ≤ st.regwidth)
    (hw8 : st.regwidth ≤ 8) (l : List ℕ) :
    ∀ h : Hll, h.st = st → isReg h.storage → regWF st h.storage →
    ∀ v ∈ l, v ≠ 0 →
    regCovers st
      (l.foldl (fun acc u => if u = 0 then acc else addRawReg acc u) h).storage v := by
  induction l with
  | nil =>
    intro h _ _ _ v hv
    simp at hv
  | cons a t ih =>
    intro h hst hreg hwf v hv hvne
    obtain ⟨st0, stor⟩ := h
    have hst' : st0 = st := hst
    subst hst'
    simp only [List.foldl_cons]
    rcases List.mem_cons.mp hv with rfl | hvt
    · rw [if_neg hvne]
      obtain ⟨hst2, hreg', hwf', hcov, -, -⟩ :=
        addRawReg_step st0 hw1 hw8 stor hreg hwf v
      exact (replay_preserves st0 hw1 hw8 t _ hst2 hreg' hwf').2.2.2 v hcov
    · by_cases ha : a = 0
      · rw [if_pos ha]
        exact ih ⟨st0, stor⟩ rfl hreg hwf v hvt hvne
      · rw [if_neg ha]
        obtain ⟨hst2, hreg', hwf', -, -, -⟩ :=
          addRawReg_step st0 hw1 hw8 stor hreg hwf a
        exact ih _ hst2 hreg' hwf' v hvt hvne

lemma addRaw_sp (st : GoSettings) (s : SparseStorage) (v : ℕ) (hv : v ≠ 0) :
    addRaw ⟨st, .sp s⟩ v = addRawReg ⟨st, .sp s⟩ v := by
  simp [addRaw, hv]

lemma addRaw_ds (st : GoSettings) (d : DenseStorage) (v : ℕ) (hv : v ≠ 0) :
    addRaw ⟨st, .ds d⟩ v = addRawReg ⟨st, .ds d⟩ v := by
  simp [addRaw, hv]

lemma addRaw_ex (st : GoSettings) (s : ExplicitStorage) (v : ℕ) (hv : v ≠ 0) :
    addRaw ⟨st, .ex s⟩ v =
      if (insert v s).card > st.explicitThreshold then
        upgradeFromExplicit st (insert v s)
      else ⟨st, .ex (insert v s)⟩ := by
  simp [addRaw, hv]

/-- On a register-type counter, `AddRaw` of an already-covered value is the
identity. -/
lemma addRaw_reg_noop (st : GoSettings) (hw1 : 1 ≤ st.regwidth)
    (hw8 : st.regwidth ≤ 8) (h2 : Hll) (hst : h2.st = st)
    (hreg : isReg h2.storage) (hwf : regWF st h2.storage) (v : ℕ)
    (hcov : regCovers st h2.storage v) :
    addRaw h2 v = h2 := by
  obtain ⟨st0, stor⟩ := h2
  have hst' : st0 = st := hst
  subst hst'
  by_cases hv : v = 0
  · simp [addRaw, hv]
  · cases stor with
    | empty => exact absurd hreg (by simp [isReg])
    | ex s => exact absurd hreg (by simp [isReg])
    | sp s =>
      rw [addRaw_sp st0 s v hv]
      exact (addRawReg_step st0 hw1 hw8 _ hreg hwf v).2.2.2.2.2 hcov
    | ds d =>
      rw [addRaw_ds st0 d v hv]
      exact (addRawReg_step st0 hw1 hw8 _ hreg hwf v).2.2.2.2.2 hcov

lemma addRaw_empty_ex (st : GoSettings) (v : ℕ) (hv : v ≠ 0)
    (hex : 0 < st.explicitThreshold) :
    addRaw ⟨st, .empty⟩ v = ⟨st, .ex {v}⟩ := by
  have h1 : (insert v (∅ : Finset ℕ)).card = 1 := by simp
  simp [addRaw, hv, hex, h1]
  intro h
  exact absurd h (by omega)

lemma addRaw_empty_sp (st : GoSettings) (v : ℕ) (hv : v ≠ 0)
    (hex : ¬ 0 < st.explicitThreshold) (hsp : st.sparseEnabled = true) :
    addRaw ⟨st, .empty⟩ v = addRawReg ⟨st, .sp []⟩ v := by
  simp [addRaw, hv, hex, hsp]

lemma addRaw_empty_ds (st : GoSettings) (v : ℕ) (hv : v ≠ 0)
    (hex : ¬ 0 < st.explicitThreshold) (hsp : st.sparseEnabled = false) :
    addRaw ⟨st, .empty⟩ v = addRawReg ⟨st, .ds (newDense st)⟩ v := by
  simp [addRaw, hv, hex, hsp]

/-- C6: insertion is idempotent.  For every counter whose settings have a
regwidth in `[1, 8]` and whose storage satisfies the invariants `AddRaw`
maintains (`regWF`: a sparse map within the sparse threshold with in-range
keys and register values; a dense array of exactly `denseWords` 64-bit
words; nothing for empty or explicit storage), adding the same raw value a
second time leaves the counter unchanged — in every tier, and also when the
first add causes a promotion to sparse or dense storage. -/
theorem addRaw_idempotent (h : Hll) (v : ℕ)
    (hw1 : 1 ≤ h.st.regwidth) (hw8 : h.st.regwidth ≤ 8)
    (hwf : regWF h.st h.storage) :
    addRaw (addRaw h v) v = addRaw h v := by
  obtain ⟨st, stor⟩ := h
  by_cases hv : v = 0
  · subst hv
    simp [addRaw]
  · cases stor with
    | empty =>
      by_cases hex : 0 < st.explicitThreshold
      · rw [addRaw_empty_ex st v hv hex, addRaw_ex st {v} v hv,
          Finset.insert_eq_self.mpr (Finset.mem_singleton_self v),
          if_neg (by simp only [Finset.card_singleton]; omega)]
      · cases hsp : st.sparseEnabled with
        | false =>
          rw [addRaw_empty_ds st v hv hex hsp]
          have hwf0 : regWF st (.ds (newDense st)) :=
            ⟨newDense_length st, newDense_bounds st⟩
          obtain ⟨hst2, hreg2, hwf2, hcov2, -, -⟩ :=
            addRawReg_step st hw1 hw8 (.ds (newDense st)) trivial hwf0 v
          exact addRaw_reg_noop st hw1 hw8 _ hst2 hreg2 hwf2 v hcov2
        | true =>
          rw [addRaw_empty_sp st v hv hex hsp]
          have hwf0 : regWF st (.sp []) := ⟨Nat.zero_le _, by simp⟩
          obtain ⟨hst2, hreg2, hwf2, hcov2, -, -⟩ :=
            addRawReg_step st hw1 hw8 (.sp []) trivial hwf0 v
          exact addRaw_reg_noop st hw1 hw8 _ hst2 hreg2 hwf2 v hcov2
    | ex s =>
      rw [addRaw_ex st s v hv]
      by_cases hpro : (insert v s).card > st.explicitThreshold
      · rw [if_pos hpro]
        have hunf : upgradeFromExplicit st (insert v s) =
            ((insert v s).sort (· ≤ ·)).foldl
              (fun acc u => if u = 0 then acc else addRawReg acc u)
              ⟨st, if st.sparseEnabled then Storage.sp [] else .ds (newDense st)⟩ := rfl
        have hreg0 : isReg
            (if st.sparseEnabled then Storage.sp [] else .ds (newDense st)) := by
          split <;> trivial
        have hwf0 : regWF st
            (if st.sparseEnabled then Storage.sp [] else .ds (newDense st)) := by
          split
          · exact ⟨Nat.zero_le _, by simp⟩
          · exact ⟨newDense_length st, newDense_bounds st⟩
        have hvmem : v ∈ (insert v s).sort (· ≤ ·) := by
          rw [Finset.mem_sort]
          exact Finset.mem_insert_self v s
        rw [hunf]
        obtain ⟨hst2, hreg2, hwf2, -⟩ :=
          replay_preserves st hw1 hw8 ((insert v s).sort (· ≤ ·))
            ⟨st, if st.sparseEnabled then Storage.sp [] else .ds (newDense st)⟩
            rfl hreg0 hwf0
        have hcov2 :=
          replay_covers_mem st hw1 hw8 ((insert v s).sort (· ≤ ·))
            ⟨st, if st.sparseEnabled then Storage.sp [] else .ds (newDense st)⟩
            rfl hreg0 hwf0 v hvmem hv
        exact addRaw_reg_noop st hw1 hw8 _ hst2 hreg2 hwf2 v hcov2
      · rw [if_neg hpro, addRaw_ex st (insert v s) v hv,
          Finset.insert_eq_self.mpr (Finset.mem_insert_self v s), if_neg hpro]
    | sp s =>
      rw [addRaw_sp st s v hv]
      obtain ⟨hst2, hreg2, hwf2, hcov2, -, -⟩ :=
        addRawReg_step st hw1 hw8 (.sp s) trivial hwf v
      exact addRaw_reg_noop st hw1 hw8 _ hst2 hreg2 hwf2 v hcov2
    | ds d =>
      rw [addRaw_ds st d v hv]
      obtain ⟨hst2, hreg2, hwf2, hcov2, -, -⟩ :=
        addRawReg_step st hw1 hw8 (.ds d) trivial hwf v
      exact addRaw_reg_noop st hw1 hw8 _ hst2 hreg2 hwf2 v hcov2

/-- Witness for C6 at a concrete input: the settings of the library's
explicit-storage tests, a fresh counter, value 1. -/
theorem addRaw_idempotent_witness :
    (1 ≤ (⟨⟨11, 5, false, true, 128, 512⟩, .empty⟩ : Hll).st.regwidth ∧
      (⟨⟨11, 5, false, true, 128, 512⟩, .empty⟩ : Hll).st.regwidth ≤ 8 ∧
      regWF (⟨⟨11, 5, false, true, 128, 512⟩, .empty⟩ : Hll).st
        (⟨⟨11, 5, false, true, 128, 512⟩, .empty⟩ : Hll).storage) ∧
    addRaw (addRaw ⟨⟨11, 5, false, true, 128, 512⟩, .empty⟩ 1) 1
      = addRaw ⟨⟨11, 5, false, true, 128, 512⟩, .empty⟩ 1 :=
  ⟨⟨by norm_num, by norm_num, trivial⟩,
    addRaw_idempotent ⟨⟨11, 5, false, true, 128, 512⟩, .empty⟩ 1
      (by norm_num) (by norm_num) trivial⟩

end GoHll
